import Mathlib

/-!
# Verification of the DeadReckoningLauncher update engine

A shallow embedding of `src/updater.rs` (the incremental-patch update
engine): semantic-version parsing and ordering as implemented by the
`semver` crate, catalog parsing (`check_for_updates`), patch download
(`download_patch`), archive extraction (`apply_patch`) and the
orchestrating `update` function.  External effects (network, the
operating system's file system, zip decoding) are supplied as explicit
oracle inputs; the file system is modelled as an association list from
component paths to nodes.  All definitions are executable.
-/

namespace DRL

/-! ## Comparator machinery

`sort_by(|a, b| a.version.cmp(&b.version))` in the source sorts by a
three-valued comparator.  We package the two laws (antisymmetry of
`swap`, transitivity of "not greater") needed to conclude that the
sorted output is pairwise ordered. -/

/-- A comparator that behaves like a total preorder: swapping arguments
swaps the answer, and "not greater" is transitive. -/
structure LawfulCmp {α : Type _} (f : α → α → Ordering) : Prop where
  symm : ∀ a b, f a b = (f b a).swap
  le_trans : ∀ a b c, f a b ≠ .gt → f b c ≠ .gt → f a c ≠ .gt

theorem LawfulCmp.eq_of_both_le {α : Type _} {f : α → α → Ordering} (hf : LawfulCmp f)
    {a b : α} (h1 : f a b ≠ .gt) (h2 : f b a ≠ .gt) : f a b = .eq := by
  have hs := hf.symm a b
  cases h' : f b a with
  | lt => rw [h'] at hs; exact absurd hs h1
  | eq => rw [h'] at hs; exact hs
  | gt => exact absurd h' h2

theorem LawfulCmp.not_gt_of_eq {α : Type _} {f : α → α → Ordering} (_ : LawfulCmp f)
    {a b : α} (h : f a b = .eq) : f a b ≠ .gt := by simp [h]

/-- One step of lexicographic transitivity: if the head comparator is
lawful and the tail outcomes are transitive, the composite is
transitive. -/
theorem lexStep {β : Type _} {f : β → β → Ordering} (hf : LawfulCmp f)
    {x y z : β} {t1 t2 t3 : Ordering}
    (hg : t1 ≠ .gt → t2 ≠ .gt → t3 ≠ .gt)
    (hab : (f x y).then t1 ≠ .gt) (hbc : (f y z).then t2 ≠ .gt) :
    (f x z).then t3 ≠ .gt := by
  cases hfab : f x y with
  | gt => rw [hfab] at hab; simp [Ordering.then] at hab
  | lt =>
    cases hfbc : f y z with
    | gt => rw [hfbc] at hbc; simp [Ordering.then] at hbc
    | lt =>
      have hac : f x z ≠ .gt :=
        hf.le_trans x y z (by simp [hfab]) (by simp [hfbc])
      cases hfac : f x z with
      | lt => simp [Ordering.then]
      | gt => exact absurd hfac hac
      | eq =>
        have hca : f z x = .eq := by
          have := hf.symm x z; rw [hfac] at this
          cases h' : f z x <;> rw [h'] at this <;> simp_all [Ordering.swap]
        have hcb : f z y ≠ .gt :=
          hf.le_trans z x y (by simp [hca]) (by simp [hfab])
        have : f y z = .eq := hf.eq_of_both_le (by simp [hfbc]) hcb
        rw [hfbc] at this; exact absurd this (by simp)
    | eq =>
      have hac : f x z ≠ .gt :=
        hf.le_trans x y z (by simp [hfab]) (by simp [hfbc])
      cases hfac : f x z with
      | lt => simp [Ordering.then]
      | gt => exact absurd hfac hac
      | eq =>
        have hca : f z x = .eq := by
          have := hf.symm x z; rw [hfac] at this
          cases h' : f z x <;> rw [h'] at this <;> simp_all [Ordering.swap]
        have hba : f y x ≠ .gt := by
          refine hf.le_trans y z x (by simp [hfbc]) ?_
          simp [hca]
        have : f x y = .eq := hf.eq_of_both_le (by simp [hfab]) hba
        rw [hfab] at this; exact absurd this (by simp)
  | eq =>
    rw [hfab] at hab
    simp only [Ordering.then] at hab
    cases hfbc : f y z with
    | gt => rw [hfbc] at hbc; simp [Ordering.then] at hbc
    | lt =>
      have hac : f x z ≠ .gt :=
        hf.le_trans x y z (by simp [hfab]) (by simp [hfbc])
      cases hfac : f x z with
      | lt => simp [Ordering.then]
      | gt => exact absurd hfac hac
      | eq =>
        have hca : f z x = .eq := by
          have := hf.symm x z; rw [hfac] at this
          cases h' : f z x <;> rw [h'] at this <;> simp_all [Ordering.swap]
        have hcb : f z y ≠ .gt :=
          hf.le_trans z x y (by simp [hca]) (by simp [hfab])
        have : f y z = .eq := hf.eq_of_both_le (by simp [hfbc]) hcb
        rw [hfbc] at this; exact absurd this (by simp)
    | eq =>
      rw [hfbc] at hbc
      simp only [Ordering.then] at hbc
      have hac : f x z ≠ .gt :=
        hf.le_trans x y z (by simp [hfab]) (by simp [hfbc])
      cases hfac : f x z with
      | lt => simp [Ordering.then]
      | gt => exact absurd hfac hac
      | eq => simp only [Ordering.then]; exact hg hab hbc

/-- Lexicographic composition of two lawful comparators is lawful. -/
theorem LawfulCmp.then_lawful {α : Type _} {f g : α → α → Ordering}
    (hf : LawfulCmp f) (hg : LawfulCmp g) :
    LawfulCmp (fun a b => (f a b).then (g a b)) := by
  constructor
  · intro a b
    rw [hf.symm a b, hg.symm a b, Ordering.swap_then]
  · intro a b c hab hbc
    exact lexStep hf (hg.le_trans a b c) hab hbc

/-- Pulling a lawful comparator back along a function keeps it lawful. -/
theorem LawfulCmp.comap {α β : Type _} {f : β → β → Ordering} (hf : LawfulCmp f)
    (k : α → β) : LawfulCmp (fun a b => f (k a) (k b)) :=
  ⟨fun a b => hf.symm (k a) (k b), fun a b c => hf.le_trans (k a) (k b) (k c)⟩

theorem natCompare_lawful : LawfulCmp (fun a b : Nat => compare a b) := by
  constructor
  · intro a b
    rcases Nat.lt_trichotomy a b with h | h | h
    · rw [Nat.compare_eq_lt.mpr h, Nat.compare_eq_gt.mpr h]; rfl
    · rw [Nat.compare_eq_eq.mpr h, Nat.compare_eq_eq.mpr h.symm]; rfl
    · rw [Nat.compare_eq_gt.mpr h, Nat.compare_eq_lt.mpr h]; rfl
  · intro a b c hab hbc
    intro h
    rw [Nat.compare_eq_gt] at h
    rcases Nat.lt_trichotomy a b with h1 | h1 | h1
    · rcases Nat.lt_trichotomy b c with h2 | h2 | h2
      · omega
      · omega
      · exact hbc (Nat.compare_eq_gt.mpr h2)
    · rcases Nat.lt_trichotomy b c with h2 | h2 | h2 <;> first
        | omega
        | exact hbc (Nat.compare_eq_gt.mpr h2)
    · exact hab (Nat.compare_eq_gt.mpr h1)

/-! ## String and path helpers mirroring the Rust standard library

All operations work on the underlying character lists, so that every
definition evaluates by kernel reduction. -/

def listStarts : List Char → List Char → Bool
  | _, [] => true
  | [], _ :: _ => false
  | c :: cs, d :: ds => c == d && listStarts cs ds

/-- `str::starts_with`. -/
def strStarts (s pat : String) : Bool := listStarts s.data pat.data

/-- `str::ends_with`. -/
def strEnds (s pat : String) : Bool := listStarts s.data.reverse pat.data.reverse

/-- Dropping the first `n` characters (the `[6..]` slice). -/
def strDrop (s : String) (n : Nat) : String := String.mk (s.data.drop n)

/-- Dropping the last `n` characters (the `[..len - 4]` slice). -/
def strDropRight (s : String) (n : Nat) : String :=
  String.mk (s.data.take (s.data.length - n))

def charSplitAux (sep : Char) : List Char → List Char → List String
  | [], cur => [String.mk cur.reverse]
  | c :: cs, cur =>
    if c == sep then String.mk cur.reverse :: charSplitAux sep cs []
    else charSplitAux sep cs (c :: cur)

/-- Splitting at a separator character (the newline of `str::lines`,
the `/` between path components). -/
def charSplit (sep : Char) (s : String) : List String := charSplitAux sep s.data []

/-! ## Semantic versions

Embeds the `semver` crate (version 1.x) as consumed by `updater.rs`:
`Version::parse`, `Display`, and the total order `Ord` used by
`sort_by(|a, b| a.version.cmp(&b.version))` and by
`patch.version > current_version`. -/

def isAsciiDigit (c : Char) : Bool := '0' ≤ c && c ≤ '9'

/-- Characters allowed in pre-release/build identifiers: ASCII
alphanumerics and hyphen. -/
def isIdentChar (c : Char) : Bool := c.isAlpha || isAsciiDigit c || c == '-'

structure Version where
  major : Nat
  minor : Nat
  patch : Nat
  /-- pre-release identifiers (the dot-separated pieces after `-`) -/
  pre : List String
  /-- build-metadata identifiers (the dot-separated pieces after `+`) -/
  build : List String
deriving DecidableEq, Repr

/-- Byte-wise comparison of ASCII identifier text
(`Ordering::cmp(lhs.as_bytes(), rhs.as_bytes())`). -/
def cmpCharList : List Char → List Char → Ordering
  | [], [] => .eq
  | [], _ :: _ => .lt
  | _ :: _, [] => .gt
  | a :: as, b :: bs => (compare a.toNat b.toNat).then (cmpCharList as bs)

def allDigits (s : String) : Bool := s.data.all isAsciiDigit

/-- Comparison of two identifiers as in `semver`'s `Ord`
implementations: two numeric identifiers compare numerically with a
leading-zeros tiebreak (`0 < 00 < 1 < 01 < 001 < 2`), a numeric
identifier is less than an alphanumeric one, and two alphanumeric
identifiers compare by their ASCII bytes. -/
def numIdentCmp (a b : String) : Ordering :=
  ((compare (a.data.dropWhile (· == '0')).length (b.data.dropWhile (· == '0')).length).then
    (cmpCharList (a.data.dropWhile (· == '0')) (b.data.dropWhile (· == '0')))).then
    (compare a.data.length b.data.length)

def cmpIdent (a b : String) : Ordering :=
  match allDigits a, allDigits b with
  | true, true => numIdentCmp a b
  | true, false => .lt
  | false, true => .gt
  | false, false => cmpCharList a.data b.data

/-- Identifier lists compare pointwise; when one list is a proper
initial segment of the other, the shorter one is less. -/
def cmpIdentList : List String → List String → Ordering
  | [], [] => .eq
  | [], _ :: _ => .lt
  | _ :: _, [] => .gt
  | a :: as, b :: bs => (cmpIdent a b).then (cmpIdentList as bs)

/-- `semver`'s `Ord for Prerelease`: a version without pre-release
identifiers compares greater than the same version with them. -/
def cmpPre (a b : List String) : Ordering :=
  match a.isEmpty, b.isEmpty with
  | true, true => .eq
  | true, false => .gt
  | false, true => .lt
  | false, false => cmpIdentList a b

/-- `semver`'s `Ord for Version`: major, minor, patch, pre-release,
then build metadata. -/
def Version.cmp (a b : Version) : Ordering :=
  ((((compare a.major b.major).then (compare a.minor b.minor)).then
    (compare a.patch b.patch)).then (cmpPre a.pre b.pre)).then
    (cmpIdentList a.build b.build)

def Version.lt (a b : Version) : Prop := a.cmp b = .lt

instance : LT Version := ⟨Version.lt⟩

instance (a b : Version) : Decidable (a < b) :=
  inferInstanceAs (Decidable (a.cmp b = .lt))

/-! ### Parsing (`Version::parse`) -/

def digitsToNatAux (acc : Nat) : List Char → Nat
  | [] => acc
  | c :: cs => digitsToNatAux (acc * 10 + (c.toNat - 48)) cs

/-- One numeric component (`major`, `minor` or `patch`): a non-empty
digit run with no leading zero, fitting in a `u64`. -/
def parseNumPart (cs : List Char) : Except String (Nat × List Char) :=
  let ds := cs.takeWhile isAsciiDigit
  let rest := cs.dropWhile isAsciiDigit
  if ds.isEmpty then .error "expected a numeric component"
  else if ds.length > 1 && ds.headD '0' == '0' then
    .error "leading zero in numeric component"
  else
    let n := digitsToNatAux 0 ds
    if n < 2 ^ 64 then .ok (n, rest) else .error "numeric component overflows u64"

/-- Collects dot-separated identifiers.  Stops at end of input, or
(when reading the pre-release part, `stopAtPlusSign = true`) at a `+`
which is left in the remainder.  An empty identifier or a character
outside `[0-9A-Za-z-]` is an error. -/
def identChars (stopAtPlusSign : Bool) (cur : List Char) (acc : List String) :
    List Char → Except String (List String × List Char)
  | [] =>
    if cur.isEmpty then .error "empty identifier"
    else .ok (acc ++ [String.mk cur.reverse], [])
  | c :: rest =>
    if c == '.' then
      if cur.isEmpty then .error "empty identifier"
      else identChars stopAtPlusSign [] (acc ++ [String.mk cur.reverse]) rest
    else if stopAtPlusSign && c == '+' then
      if cur.isEmpty then .error "empty identifier"
      else .ok (acc ++ [String.mk cur.reverse], c :: rest)
    else if isIdentChar c then
      identChars stopAtPlusSign (c :: cur) acc rest
    else .error "unexpected character in identifier"

/-- A numeric pre-release identifier must not have a leading zero. -/
def validPreIdent (s : String) : Bool :=
  !(allDigits s && s.data.length > 1 && strStarts s "0")

def Version.parse (s : String) : Except String Version := do
  let (major, r1) ← parseNumPart s.data
  match r1 with
  | '.' :: r1' =>
    let (minor, r2) ← parseNumPart r1'
    match r2 with
    | '.' :: r2' =>
      let (patch, r3) ← parseNumPart r2'
      match r3 with
      | [] => .ok ⟨major, minor, patch, [], []⟩
      | '-' :: r4 =>
        let (pre, r5) ← identChars true [] [] r4
        if pre.all validPreIdent then
          match r5 with
          | [] => .ok ⟨major, minor, patch, pre, []⟩
          | '+' :: r6 =>
            let (build, r7) ← identChars false [] [] r6
            match r7 with
            | [] => .ok ⟨major, minor, patch, pre, build⟩
            | _ => .error "unexpected trailing characters"
          | _ => .error "unexpected character after pre-release"
        else .error "leading zero in pre-release numeric identifier"
      | '+' :: r4 =>
        let (build, r5) ← identChars false [] [] r4
        match r5 with
        | [] => .ok ⟨major, minor, patch, [], build⟩
        | _ => .error "unexpected trailing characters"
      | _ => .error "expected hyphen or plus after patch number"
    | _ => .error "expected dot after minor number"
  | _ => .error "expected dot after major number"

/-- `Display for Version`: `major.minor.patch[-pre][+build]`. -/
def Version.toStr (v : Version) : String :=
  toString v.major ++ "." ++ toString v.minor ++ "." ++ toString v.patch ++
  (if v.pre.isEmpty then "" else "-" ++ String.intercalate "." v.pre) ++
  (if v.build.isEmpty then "" else "+" ++ String.intercalate "." v.build)

example : Version.parse "1.0.0" = .ok ⟨1, 0, 0, [], []⟩ := rfl
example : Version.parse "1.2.3-alpha.1+build.5" = .ok ⟨1, 2, 3, ["alpha", "1"], ["build", "5"]⟩ := rfl
example : (Version.parse "01.0.0").isOk = false := by decide
example : (Version.parse "1.0").isOk = false := by decide
example : (Version.parse "1.0.0-").isOk = false := by decide
example : Version.cmp ⟨1, 0, 0, [], []⟩ ⟨1, 0, 1, [], []⟩ = .lt := by decide
example : Version.cmp ⟨1, 0, 0, ["alpha"], []⟩ ⟨1, 0, 0, [], []⟩ = .lt := by decide
example : Version.toStr ⟨1, 2, 3, ["rc", "1"], ["b7"]⟩ = "1.2.3-rc.1+b7" := by decide

/-! ### Lawfulness of the version order -/

theorem charCmp_lawful : LawfulCmp (fun a b : Char => compare a.toNat b.toNat) :=
  natCompare_lawful.comap Char.toNat

theorem cmpCharList_symm : ∀ a b, cmpCharList a b = (cmpCharList b a).swap := by
  intro a
  induction a with
  | nil => intro b; cases b <;> rfl
  | cons x as ih =>
    intro b
    cases b with
    | nil => rfl
    | cons y bs =>
      show (compare x.toNat y.toNat).then (cmpCharList as bs) = _
      rw [charCmp_lawful.symm x y, ih bs, ← Ordering.swap_then]
      rfl

theorem cmpCharList_lawful : LawfulCmp cmpCharList := by
  refine ⟨cmpCharList_symm, ?_⟩
  intro a
  induction a with
  | nil =>
    intro b c _ _ h
    cases c with
    | nil => exact absurd h (by simp [cmpCharList])
    | cons z cs => exact absurd h (by simp [cmpCharList])
  | cons x as ih =>
    intro b c hab hbc
    cases b with
    | nil => exact absurd rfl hab
    | cons y bs =>
      cases c with
      | nil => exact absurd rfl hbc
      | cons z cs =>
        exact lexStep charCmp_lawful (ih bs cs) hab hbc

theorem numIdentCmp_lawful : LawfulCmp numIdentCmp := by
  have h1 : LawfulCmp (fun a b : String =>
      compare (a.data.dropWhile (· == '0')).length (b.data.dropWhile (· == '0')).length) :=
    natCompare_lawful.comap _
  have h2 : LawfulCmp (fun a b : String =>
      cmpCharList (a.data.dropWhile (· == '0')) (b.data.dropWhile (· == '0'))) :=
    cmpCharList_lawful.comap _
  have h3 : LawfulCmp (fun a b : String => compare a.data.length b.data.length) :=
    natCompare_lawful.comap _
  exact (h1.then_lawful h2).then_lawful h3

theorem cmpIdent_lawful : LawfulCmp cmpIdent := by
  constructor
  · intro a b
    unfold cmpIdent
    cases ha : allDigits a <;> cases hb : allDigits b <;> simp only
    · exact cmpCharList_lawful.comap String.data |>.symm a b
    · rfl
    · rfl
    · exact numIdentCmp_lawful.symm a b
  · intro a b c hab hbc
    unfold cmpIdent at hab hbc ⊢
    cases ha : allDigits a <;> cases hb : allDigits b <;> cases hc : allDigits c <;>
      rw [ha, hb] at hab <;> rw [hb, hc] at hbc <;> simp only at hab hbc ⊢
    · exact (cmpCharList_lawful.comap String.data).le_trans a b c hab hbc
    · exact absurd rfl hbc
    · exact absurd rfl hab
    · exact absurd rfl hab
    · simp
    · exact absurd rfl hbc
    · simp
    · exact numIdentCmp_lawful.le_trans a b c hab hbc

theorem cmpIdentList_symm : ∀ a b, cmpIdentList a b = (cmpIdentList b a).swap := by
  intro a
  induction a with
  | nil => intro b; cases b <;> rfl
  | cons x as ih =>
    intro b
    cases b with
    | nil => rfl
    | cons y bs =>
      show (cmpIdent x y).then (cmpIdentList as bs) = _
      rw [cmpIdent_lawful.symm x y, ih bs, ← Ordering.swap_then]
      rfl

theorem cmpIdentList_lawful : LawfulCmp cmpIdentList := by
  refine ⟨cmpIdentList_symm, ?_⟩
  intro a
  induction a with
  | nil =>
    intro b c _ _ h
    cases c with
    | nil => exact absurd h (by simp [cmpIdentList])
    | cons z cs => exact absurd h (by simp [cmpIdentList])
  | cons x as ih =>
    intro b c hab hbc
    cases b with
    | nil => exact absurd rfl hab
    | cons y bs =>
      cases c with
      | nil => exact absurd rfl hbc
      | cons z cs =>
        exact lexStep cmpIdent_lawful (ih bs cs) hab hbc

theorem cmpPre_lawful : LawfulCmp cmpPre := by
  constructor
  · intro a b
    unfold cmpPre
    cases ha : a.isEmpty <;> cases hb : b.isEmpty <;> simp only
    · exact cmpIdentList_symm a b
    · rfl
    · rfl
    · rfl
  · intro a b c hab hbc
    unfold cmpPre at hab hbc ⊢
    cases ha : a.isEmpty <;> cases hb : b.isEmpty <;> cases hc : c.isEmpty <;>
      rw [ha, hb] at hab <;> rw [hb, hc] at hbc <;> simp only at hab hbc ⊢
    · exact cmpIdentList_lawful.le_trans a b c hab hbc
    · simp
    · exact absurd rfl hbc
    · simp
    · exact absurd rfl hab
    · exact absurd rfl hab
    · exact absurd rfl hbc
    · simp

theorem versionCmp_lawful : LawfulCmp Version.cmp := by
  have h1 : LawfulCmp (fun a b : Version => compare a.major b.major) :=
    natCompare_lawful.comap _
  have h2 : LawfulCmp (fun a b : Version => compare a.minor b.minor) :=
    natCompare_lawful.comap _
  have h3 : LawfulCmp (fun a b : Version => compare a.patch b.patch) :=
    natCompare_lawful.comap _
  have h4 : LawfulCmp (fun a b : Version => cmpPre a.pre b.pre) :=
    cmpPre_lawful.comap _
  have h5 : LawfulCmp (fun a b : Version => cmpIdentList a.build b.build) :=
    cmpIdentList_lawful.comap _
  exact (((h1.then_lawful h2).then_lawful h3).then_lawful h4).then_lawful h5


/-- The Unicode `White_Space` characters, as recognized by `str::trim`. -/
def isRustWhitespace (c : Char) : Bool :=
  ([0x09, 0x0A, 0x0B, 0x0C, 0x0D, 0x20, 0x85, 0xA0, 0x1680,
    0x2000, 0x2001, 0x2002, 0x2003, 0x2004, 0x2005, 0x2006, 0x2007,
    0x2008, 0x2009, 0x200A, 0x2028, 0x2029, 0x202F, 0x205F, 0x3000] : List Nat).contains c.toNat

/-- `str::trim`. -/
def rustTrim (s : String) : String :=
  String.mk (((s.data.dropWhile isRustWhitespace).reverse.dropWhile isRustWhitespace).reverse)

def stripCR (s : String) : String := if strEnds s "\r" then strDropRight s 1 else s

/-- `str::lines`: pieces split at `\n`; every piece except possibly the
last was newline-terminated and loses a preceding `\r`; a final empty
piece (from a trailing newline) is not a line. -/
def rustLines (s : String) : List String :=
  let ps := charSplit '\n' s
  let front := ps.dropLast.map stripCR
  match ps.getLast? with
  | none => front
  | some "" => front
  | some l => front ++ [l]

/-- `Path::file_name`: the last normal component of the path (empty and
`.` components are skipped); `none` when the path ends in `..` or has no
component at all. -/
def fileName (s : String) : Option String :=
  match ((charSplit '/' s).filter (fun p => !(p == "") && !(p == "."))).getLast? with
  | none => none
  | some l => if l == ".." then none else some l

/-- The component list of a relative path as `Path::components` yields
it: split on `/`, dropping empty and `.` components, keeping `..`
literally.  File-system keys in the model are such component lists,
relative to the process working directory. -/
def pathParts (s : String) : List String :=
  (charSplit '/' s).filter (fun p => !(p == "") && !(p == "."))

example : rustLines "a\r\nb\n" = ["a", "b"] := by decide
example : rustLines "" = [] := by decide
example : fileName "https://host/dir/patch-1.0.1.zip" = some "patch-1.0.1.zip" := by decide
example : fileName "a/.." = none := by decide

/-! ## Data model of `updater.rs` -/

inductive UpdaterError where
  | NetworkError (msg : String)
  | VersionParseError (msg : String)
  | FileSystemError (msg : String)
  | ZipExtractionError (msg : String)
  | NoUpdateUrlConfigured
  | NoUpdatesAvailable
deriving DecidableEq, Repr

structure PatchInfo where
  version : Version
  download_url : String
deriving DecidableEq, Repr

/-- `UpdateProgress`.  The `Downloading` event's `f32` fraction
`downloaded as f32 / total as f32` is carried as its two exact integer
operands (`downloadedBytes`, `totalBytes`). -/
inductive UpdateProgress where
  | CheckingForUpdates
  | UpdatesAvailable (patches : List PatchInfo)
  | Downloading (current total : Nat) (version : String) (downloadedBytes totalBytes : Nat)
  | Extracting (current total : Nat) (version : String)
  | Complete
  | Error (e : UpdaterError)
deriving DecidableEq, Repr

/-- The two `AppConfig` fields the update engine consumes. -/
structure AppConfig where
  update_url : Option String
  version : Option String
deriving DecidableEq, Repr

/-- Stable insertion by a boolean "not greater" relation. -/
def insertLe {α : Type _} (le : α → α → Bool) (a : α) : List α → List α
  | [] => [a]
  | b :: bs => if le a b then a :: b :: bs else b :: insertLe le a bs

/-- Stable sort by a boolean "not greater" relation: the extensional
behavior of `slice::sort_by` (any two stable sorts by the same total
preorder agree), chosen structurally recursive so that it evaluates by
kernel reduction. -/
def sortByLe {α : Type _} (le : α → α → Bool) : List α → List α
  | [] => []
  | a :: as => insertLe le a (sortByLe le as)

theorem insertLe_perm {α : Type _} (le : α → α → Bool) (a : α) (l : List α) :
    (insertLe le a l).Perm (a :: l) := by
  induction l with
  | nil => exact List.Perm.refl _
  | cons b bs ih =>
    unfold insertLe
    cases h : le a b
    · simp only [Bool.false_eq_true, if_false]
      exact List.Perm.trans (List.Perm.cons b ih) (List.Perm.swap a b bs)
    · simp only [if_true]
      exact List.Perm.refl _

theorem sortByLe_perm {α : Type _} (le : α → α → Bool) (l : List α) :
    (sortByLe le l).Perm l := by
  induction l with
  | nil => exact List.Perm.refl _
  | cons a as ih =>
    exact List.Perm.trans (insertLe_perm le a (sortByLe le as)) (List.Perm.cons a ih)

theorem insertLe_sorted {α : Type _} {le : α → α → Bool}
    (htrans : ∀ a b c, le a b → le b c → le a c)
    (htotal : ∀ a b, le a b || le b a) (a : α) {l : List α}
    (hl : List.Pairwise (fun x y => le x y = true) l) :
    List.Pairwise (fun x y => le x y = true) (insertLe le a l) := by
  induction l with
  | nil => simp [insertLe]
  | cons b bs ih =>
    rcases List.pairwise_cons.mp hl with ⟨hb, hbs⟩
    unfold insertLe
    cases h : le a b
    · simp only [Bool.false_eq_true, if_false]
      refine List.pairwise_cons.mpr ⟨?_, ih hbs⟩
      intro x hx
      rcases List.mem_cons.mp ((insertLe_perm le a bs).mem_iff.mp hx) with hxa | hxbs
      · subst hxa
        have hba := htotal x b
        rw [h] at hba
        simpa using hba
      · exact hb x hxbs
    · simp only [if_true]
      refine List.pairwise_cons.mpr ⟨?_, hl⟩
      intro x hx
      rcases List.mem_cons.mp hx with hxb | hxbs
      · subst hxb; exact h
      · exact htrans a b x h (hb x hxbs)

theorem sortByLe_sorted {α : Type _} {le : α → α → Bool}
    (htrans : ∀ a b c, le a b → le b c → le a c)
    (htotal : ∀ a b, le a b || le b a) (l : List α) :
    List.Pairwise (fun x y => le x y = true) (sortByLe le l) := by
  induction l with
  | nil => simp [sortByLe]
  | cons a as ih => exact insertLe_sorted htrans htotal a ih

/-- The boolean "not greater" order on versions realized by
`sort_by(|a, b| a.version.cmp(&b.version))`. -/
def versionLeB (a b : Version) : Bool := !(a.cmp b == .gt)

def patchLe (a b : PatchInfo) : Bool := versionLeB a.version b.version

theorem versionLeB_iff (a b : Version) : versionLeB a b = true ↔ a.cmp b ≠ .gt := by
  unfold versionLeB
  cases h : a.cmp b <;> decide

theorem versionLeB_trans : ∀ a b c, versionLeB a b → versionLeB b c → versionLeB a c := by
  intro a b c hab hbc
  rw [versionLeB_iff] at hab hbc ⊢
  exact versionCmp_lawful.le_trans a b c hab hbc

theorem versionLeB_total : ∀ a b, versionLeB a b || versionLeB b a := by
  intro a b
  rcases h : a.cmp b with _ | _ | _
  · have h1 : versionLeB a b = true := by unfold versionLeB; rw [h]; decide
    simp [h1]
  · have h1 : versionLeB a b = true := by unfold versionLeB; rw [h]; decide
    simp [h1]
  · have hs := versionCmp_lawful.symm a b
    rw [h] at hs
    have hba : b.cmp a = .lt := by
      cases h2 : b.cmp a <;> rw [h2] at hs <;> simp_all [Ordering.swap]
    have h1 : versionLeB b a = true := by unfold versionLeB; rw [hba]; decide
    simp [h1]

theorem patchLe_trans : ∀ a b c, patchLe a b → patchLe b c → patchLe a c :=
  fun a b c => versionLeB_trans a.version b.version c.version

theorem patchLe_total : ∀ a b, patchLe a b || patchLe b a :=
  fun a b => versionLeB_total a.version b.version

/-- `a.version > current` as written in the filter on line 258:
`cmp` answers `Greater`. -/
def versionGtB (a b : Version) : Bool := a.cmp b == .gt

theorem versionGtB_iff_lt (a b : Version) : versionGtB a b = true ↔ b < a := by
  constructor
  · intro h
    unfold versionGtB at h
    have hab : a.cmp b = .gt := by
      cases hc : a.cmp b
      · rw [hc] at h; exact absurd h (by decide)
      · rw [hc] at h; exact absurd h (by decide)
      · rfl
    have hs := versionCmp_lawful.symm b a
    rw [hab] at hs
    exact hs
  · intro h
    have hba : b.cmp a = .lt := h
    have hs := versionCmp_lawful.symm a b
    rw [hba] at hs
    unfold versionGtB
    rw [hs]
    decide

/-! ## Catalog parsing (`check_for_updates`, lines 92–142) -/

/-- The per-line body of the catalog loop: trim; skip blank lines and
`#` comments; take the final path segment; require the `patch-` start
and `.zip` end; parse the text between them as a version (unparseable
versions are skipped).  A recognized line yields one `PatchInfo` whose
`download_url` is the trimmed line. -/
def lineToPatch (rawLine : String) : Option PatchInfo :=
  let line := rustTrim rawLine
  if line == "" || strStarts line "#" then none
  else
    match fileName line with
    | none => none
    | some fn =>
      if strStarts fn "patch-" && strEnds fn ".zip" then
        match Version.parse (strDropRight (strDrop fn 6) 4) with
        | .ok v => some ⟨v, line⟩
        | .error _ => none
      else none

/-- The whole parsing loop: every line contributes at most one patch,
in line order. -/
def availablePatches (content : String) : List PatchInfo :=
  (rustLines content).filterMap lineToPatch

/-- The network effects of one catalog fetch: `send()` may fail; a
response carries a status and a body (`text()`) that may itself fail. -/
instance {ε α : Type _} [DecidableEq ε] [DecidableEq α] : DecidableEq (Except ε α) := fun x y =>
  match x, y with
  | .ok a, .ok b =>
    if h : a = b then .isTrue (by rw [h]) else .isFalse (fun hc => h (by injection hc))
  | .error a, .error b =>
    if h : a = b then .isTrue (by rw [h]) else .isFalse (fun hc => h (by injection hc))
  | .ok _, .error _ => .isFalse (fun hc => Except.noConfusion hc)
  | .error _, .ok _ => .isFalse (fun hc => Except.noConfusion hc)

structure HttpText where
  status : Nat
  text : Except String String
deriving DecidableEq, Repr

structure FetchOracle where
  send : Except String HttpText
deriving DecidableEq, Repr

/-- `StatusCode::is_success`. -/
def isSuccessStatus (s : Nat) : Bool := 200 ≤ s && s < 300

def check_for_updates (config : AppConfig) (net : FetchOracle) :
    Except UpdaterError (List PatchInfo) :=
  match config.update_url with
  | none => .error .NoUpdateUrlConfigured
  | some _ =>
    match net.send with
    | .error e => .error (.NetworkError ("Failed to fetch update list: " ++ e))
    | .ok resp =>
      if !isSuccessStatus resp.status then
        .error (.NetworkError ("Server returned error: " ++ toString resp.status))
      else
        match resp.text with
        | .error e => .error (.NetworkError ("Failed to read response: " ++ e))
        | .ok content =>
          let sorted := sortByLe patchLe (availablePatches content)
          if sorted.isEmpty then .error .NoUpdatesAvailable
          else .ok sorted

/-- Lines 257–262: keep only fetched patches strictly above the
installed version, then sort ascending by version. -/
def applicableOf (patches : List PatchInfo) (current : Version) : List PatchInfo :=
  sortByLe patchLe (patches.filter (fun p => versionGtB p.version current))

example :
    availablePatches "patch-1.0.1.zip\npatch-0.9.0.zip\nnot-a-patch.txt\n# comment\n" =
      [⟨⟨1, 0, 1, [], []⟩, "patch-1.0.1.zip"⟩, ⟨⟨0, 9, 0, [], []⟩, "patch-0.9.0.zip"⟩] := rfl

example : lineToPatch "  " = none := rfl
example : lineToPatch "# patch-1.0.0.zip" = none := rfl
example : lineToPatch "Patch-1.0.0.zip" = none := rfl
example : lineToPatch "patch-1.0.0.ZIP" = none := rfl
example : lineToPatch "patch-1.0.zip" = none := rfl
example : lineToPatch "https://h/p/patch-2.1.3.zip " =
    some ⟨⟨2, 1, 3, [], []⟩, "https://h/p/patch-2.1.3.zip"⟩ := rfl

/-! ## File-system model

Paths are component lists relative to the process working directory
(the extraction root), with `..` kept literal; the operating system's
resolution of `..` is expressed by `normStack` below.  `FS` is an
association list; `fsSet` shadows older entries. -/

inductive FsNode where
  | dir
  | file (content : List Nat)
deriving DecidableEq, Repr

def FS := List (List String × FsNode)

instance : DecidableEq FS := inferInstanceAs (DecidableEq (List _))

instance : Repr FS := inferInstanceAs (Repr (List _))

def fsFind (fs : FS) (k : List String) : Option FsNode :=
  (fs.find? (fun e => e.1 == k)).map (·.2)

def fsHas (fs : FS) (k : List String) : Bool := (fsFind fs k).isSome

def fsSet (fs : FS) (k : List String) (v : FsNode) : FS := (k, v) :: fs

/-- Resolves components against a stack of directories already entered;
fails when a `..` would climb above the starting point. -/
def normStack : List String → List String → Option (List String)
  | [], st => some st
  | p :: rest, st =>
    if p == "" || p == "." then normStack rest st
    else if p == ".." then
      match st with
      | [] => none
      | _ :: st2 => normStack rest st2
    else normStack rest (p :: st)

/-- The path resolves to a location at or below the directory it is
interpreted against (the extraction root). -/
def insideRoot (ps : List String) : Bool := (normStack ps []).isSome

/-- `ZipFile::enclosed_name` (zip crate): `none` when the stored name
contains a NUL character, is absolute, or climbs above the extraction
root via `..`; otherwise the name's components.  (Windows path prefixes
are outside this Unix-path model.) -/
def enclosedParts (name : String) : Option (List String) :=
  if name.data.contains (Char.ofNat 0) then none
  else if strStarts name "/" then none
  else if insideRoot (pathParts name) then some (pathParts name) else none

/-! ## `download_patch` (lines 144–188) -/

structure HttpBody where
  status : Nat
  contentLength : Option Nat
  /-- successive results of `response.read(&mut buffer)`: a chunk of at
  most 8192 bytes, or a read error; an exhausted list reads as `Ok(0)`. -/
  reads : List (Except String (List Nat))
deriving DecidableEq, Repr

structure DownloadOracle where
  createErr : Option String
  send : Except String HttpBody
  /-- `write_all` failures, consumed one per write. -/
  writeErrs : List (Option String)
deriving DecidableEq, Repr

/-- The destination `self.updates_dir.join(format!("patch-{}.zip", patch.version))`. -/
def destPath (updatesDir : String) (v : Version) : String :=
  updatesDir ++ "/" ++ ("patch-" ++ v.toStr ++ ".zip")

/-- The `while let Ok(n) = response.read(&mut buffer)` loop of
`download_patch` (lines 166–185).  A read error terminates the loop
silently — the `while let` pattern drops the error — after which the
function returns success. -/
def dlLoop (key : List String) (versionStr : String) (totalSize : Nat) :
    List (Except String (List Nat)) → List (Option String) → Nat → FS →
    List UpdateProgress → Except UpdaterError Unit × FS × List UpdateProgress
  | [], _, _, fs, ev => (.ok (), fs, ev)
  | .error _ :: _, _, _, fs, ev => (.ok (), fs, ev)
  | .ok [] :: _, _, _, fs, ev => (.ok (), fs, ev)
  | .ok chunk :: rest, writeErrs, downloaded, fs, ev =>
    match writeErrs.headD none with
    | some m => (.error (.FileSystemError ("Failed to write to file: " ++ m)), fs, ev)
    | none =>
      let old := match fsFind fs key with
        | some (.file c) => c
        | _ => []
      let fs1 := fsSet fs key (.file (old ++ chunk))
      let d1 := downloaded + chunk.length
      let ev1 := if totalSize > 0 then ev ++ [.Downloading 1 1 versionStr d1 totalSize] else ev
      dlLoop key versionStr totalSize rest writeErrs.tail d1 fs1 ev1

def download_patch (updatesDir : String) (patch : PatchInfo) (o : DownloadOracle) (fs : FS) :
    Except UpdaterError String × FS × List UpdateProgress :=
  let outputPath := destPath updatesDir patch.version
  let key := pathParts outputPath
  match o.createErr with
  | some m => (.error (.FileSystemError ("Failed to create output file: " ++ m)), fs, [])
  | none =>
    let fs1 := fsSet fs key (.file [])
    match o.send with
    | .error e => (.error (.NetworkError ("Failed to download patch: " ++ e)), fs1, [])
    | .ok resp =>
      if !isSuccessStatus resp.status then
        (.error (.NetworkError ("Server returned error: " ++ toString resp.status)), fs1, [])
      else
        let totalSize := resp.contentLength.getD 0
        match dlLoop key patch.version.toStr totalSize resp.reads o.writeErrs 0 fs1 [] with
        | (.error e, fs2, ev) => (.error e, fs2, ev)
        | (.ok _, fs2, ev) => (.ok outputPath, fs2, ev)

/-! ## `apply_patch` (lines 190–241) -/

structure ZipEntry where
  name : String
  isDir : Bool
  content : List Nat
deriving DecidableEq, Repr

/-- Per-entry failure oracle for the four fallible operations of the
extraction body. -/
structure EntryOutcome where
  byIndexErr : Option String
  mkdirErr : Option String
  createErr : Option String
  copyErr : Option String
deriving DecidableEq, Repr

def cleanOutcome : EntryOutcome := ⟨none, none, none, none⟩

structure InstallOracle where
  /-- `File::open(patch_path)` failure -/
  openErr : Option String
  /-- `ZipArchive::new` failure -/
  zipErr : Option String
  /-- the archive's entries, in archive order -/
  entries : List ZipEntry
  outcomes : List EntryOutcome
deriving DecidableEq, Repr

/-- Creates the ancestors `ps.take 1`, …, `ps.take n` that are missing. -/
def mkdirUpTo (fs : FS) (ps : List String) : Nat → FS
  | 0 => fs
  | k + 1 =>
    let fs1 := mkdirUpTo fs ps k
    let anc := ps.take (k + 1)
    if fsHas fs1 anc then fs1 else fsSet fs1 anc .dir

/-- `fs::create_dir_all`: creates the directory and every missing
ancestor; an existing node is left in place. -/
def mkdirAll (fs : FS) (ps : List String) : FS := mkdirUpTo fs ps ps.length

/-- The entry loop of `apply_patch` (lines 205–238).  An entry whose
stored name is not enclosed in the extraction root is skipped silently,
before any progress event for it.  `io::copy`'s output on failure is
unspecified by the source; the model leaves the just-created empty
file. -/
def extractLoop (fname : String) (total : Nat) :
    List ZipEntry → List EntryOutcome → Nat → FS → List UpdateProgress →
    Except UpdaterError Unit × FS × List UpdateProgress
  | [], _, _, fs, ev => (.ok (), fs, ev)
  | e :: rest, outs, i, fs, ev =>
    let oc := outs.headD cleanOutcome
    match oc.byIndexErr with
    | some m => (.error (.ZipExtractionError ("Failed to access file in archive: " ++ m)), fs, ev)
    | none =>
      match enclosedParts e.name with
      | none => extractLoop fname total rest outs.tail (i + 1) fs ev
      | some outPs =>
        let ev1 := ev ++ [.Extracting (i + 1) total fname]
        if e.isDir then
          match oc.mkdirErr with
          | some m => (.error (.FileSystemError ("Failed to create directory: " ++ m)), fs, ev1)
          | none => extractLoop fname total rest outs.tail (i + 1) (mkdirAll fs outPs) ev1
        else
          let parent := outPs.dropLast
          let needParent := !parent.isEmpty && !fsHas fs parent
          if needParent && oc.mkdirErr.isSome then
            (.error (.FileSystemError ("Failed to create parent directory: " ++ oc.mkdirErr.getD "")),
              fs, ev1)
          else
            let fs1 := if needParent then mkdirAll fs parent else fs
            match oc.createErr with
            | some m => (.error (.FileSystemError ("Failed to create output file: " ++ m)), fs1, ev1)
            | none =>
              let fs2 := fsSet fs1 outPs (.file [])
              match oc.copyErr with
              | some m => (.error (.FileSystemError ("Failed to write output file: " ++ m)), fs2, ev1)
              | none =>
                extractLoop fname total rest outs.tail (i + 1) (fsSet fs2 outPs (.file e.content)) ev1

def apply_patch (patchPath : String) (o : InstallOracle) (fs : FS) :
    Except UpdaterError Unit × FS × List UpdateProgress :=
  match o.openErr with
  | some m => (.error (.FileSystemError ("Failed to open patch file: " ++ m)), fs, [])
  | none =>
    match o.zipErr with
    | some m => (.error (.ZipExtractionError ("Failed to open zip archive: " ++ m)), fs, [])
    | none =>
      let fname := (fileName patchPath).getD "unknown"
      extractLoop fname o.entries.length o.entries o.outcomes 0 fs []

/-! ## `update` (lines 243–291) -/

structure PatchOracle where
  download : DownloadOracle
  install : InstallOracle
deriving DecidableEq, Repr

def defaultPatchOracle : PatchOracle :=
  ⟨⟨none, .ok ⟨200, none, []⟩, []⟩, ⟨none, none, [], []⟩⟩

structure UpdateOracle where
  fetch : FetchOracle
  /-- effects of the i-th iteration of the patch loop -/
  patches : List PatchOracle
deriving DecidableEq, Repr

/-- The orchestrator's mutable context: the file system, the progress
events delivered so far (in order), and `self.config.version`. -/
structure RunSt where
  fs : FS
  events : List UpdateProgress
  version : Option String
deriving DecidableEq, Repr

def zipOracles : List PatchInfo → List PatchOracle → List (PatchInfo × PatchOracle)
  | [], _ => []
  | p :: ps, os => (p, os.headD defaultPatchOracle) :: zipOracles ps os.tail

/-- One iteration of `update`'s patch loop (lines 270–283): download,
install, then record this patch's version in the in-memory config. -/
def stepPatch (updatesDir : String) (po : PatchInfo × PatchOracle) (st : RunSt) :
    Except (UpdaterError × RunSt) RunSt :=
  match download_patch updatesDir po.1 po.2.download st.fs with
  | (dres, fs1, ev1) =>
    let st1 : RunSt := ⟨fs1, st.events ++ ev1, st.version⟩
    match dres with
    | .error e => .error (e, st1)
    | .ok path =>
      match apply_patch path po.2.install st1.fs with
      | (ares, fs2, ev2) =>
        let st2 : RunSt := ⟨fs2, st1.events ++ ev2, st1.version⟩
        match ares with
        | .error e => .error (e, st2)
        | .ok _ => .ok ⟨st2.fs, st2.events, some po.1.version.toStr⟩

def runPatches (updatesDir : String) : List (PatchInfo × PatchOracle) → RunSt →
    Except UpdaterError Unit × RunSt
  | [], st => (.ok (), st)
  | po :: rest, st =>
    match stepPatch updatesDir po st with
    | .error (e, st2) => (.error e, st2)
    | .ok st2 => runPatches updatesDir rest st2

/-- Lines 247–250: read and parse `self.config.version`. -/
def parseConfigVersion (config : AppConfig) : Except UpdaterError Version :=
  match config.version with
  | none => .error (.VersionParseError "No version in config")
  | some v =>
    match Version.parse v with
    | .ok cv => .ok cv
    | .error e => .error (.VersionParseError e)

/-- `Updater::update`. -/
def update (config : AppConfig) (o : UpdateOracle) (updatesDir : String) (fs : FS) :
    Except UpdaterError String × RunSt :=
  let ev0 : List UpdateProgress := [.CheckingForUpdates]
  match parseConfigVersion config with
  | .error e => (.error e, ⟨fs, ev0, config.version⟩)
  | .ok current =>
    match check_for_updates config o.fetch with
    | .error e => (.error e, ⟨fs, ev0, config.version⟩)
    | .ok patches =>
      let ev1 := ev0 ++ [.UpdatesAvailable patches]
      let applicable := applicableOf patches current
      if applicable.isEmpty then (.error .NoUpdatesAvailable, ⟨fs, ev1, config.version⟩)
      else
        match runPatches updatesDir (zipOracles applicable o.patches) ⟨fs, ev1, config.version⟩ with
        | (.error e, st) => (.error e, st)
        | (.ok _, st) => (.ok (st.version.getD "unknown"), ⟨st.fs, st.events ++ [.Complete], st.version⟩)

/-! ## Claim theorems -/

theorem versionGtB_eq_decide (a b : Version) : versionGtB a b = decide (b < a) := by
  cases hg : versionGtB a b with
  | true =>
    have := (versionGtB_iff_lt a b).mp hg
    simp [this]
  | false =>
    have hnot : ¬ b < a := fun hlt => by
      have := (versionGtB_iff_lt a b).mpr hlt
      rw [hg] at this
      exact Bool.noConfusion this
    simp [hnot]

theorem zipOracles_eq_nil_iff (l : List PatchInfo) (os : List PatchOracle) :
    zipOracles l os = [] ↔ l = [] := by
  cases l with
  | nil => simp [zipOracles]
  | cons p ps => simp [zipOracles]

/-- **C2.**  For every installed version `V` and fetched catalog `C`,
the applicable set computed by `update` (`applicableOf`) is exactly the
patches of `C` whose version is strictly greater than `V` (as a
multiset), sorted ascending by version; and whenever that set is empty a
run of `update` that parsed `V` and fetched `C` fails with
`NoUpdatesAvailable`, even for non-empty `C`. -/
theorem update_applicable_set (V : Version) (C : List PatchInfo) :
    (applicableOf C V).Perm (C.filter (fun p => decide (V < p.version))) ∧
    List.Pairwise (fun a b => patchLe a b = true) (applicableOf C V) ∧
    (∀ (config : AppConfig) (o : UpdateOracle) (updatesDir : String) (fs : FS),
      parseConfigVersion config = .ok V →
      check_for_updates config o.fetch = .ok C →
      applicableOf C V = [] →
      (update config o updatesDir fs).1 = .error .NoUpdatesAvailable) := by
  refine ⟨?_, ?_, ?_⟩
  · have hfe : C.filter (fun p => versionGtB p.version V) =
        C.filter (fun p => decide (V < p.version)) := by
      apply List.filter_congr
      intro p _
      exact versionGtB_eq_decide p.version V
    unfold applicableOf
    rw [hfe]
    exact sortByLe_perm patchLe _
  · exact sortByLe_sorted patchLe_trans patchLe_total _
  · intro config o updatesDir fs hparse hcheck happ
    unfold update
    rw [hparse, hcheck]
    simp [happ]

/-- **C2 witness**: installed version `2.0.0` with a catalog holding
only `1.0.0` — the applicable set is empty and `update` fails with
`NoUpdatesAvailable` although the catalog is non-empty. -/
theorem update_applicable_set_witness :
    (update ⟨some "http://h/list.txt", some "2.0.0"⟩
        ⟨⟨.ok ⟨200, .ok "patch-1.0.0.zip"⟩⟩, []⟩ "updates" []).1 =
      .error .NoUpdatesAvailable :=
  (update_applicable_set ⟨2, 0, 0, [], []⟩
      [⟨⟨1, 0, 0, [], []⟩, "patch-1.0.0.zip"⟩]).2.2
    ⟨some "http://h/list.txt", some "2.0.0"⟩
    ⟨⟨.ok ⟨200, .ok "patch-1.0.0.zip"⟩⟩, []⟩ "updates" []
    (by decide) (by decide) (by decide)

/-- **C3.**  When `check_for_updates` succeeds on a response body, the
returned patches are exactly (as a multiset) one `PatchInfo` per line
accepted by the per-line filter `lineToPatch` (which skips blank lines,
`#` comments, lines whose final path segment lacks the `patch-`/`.zip`
frame, and unparseable versions — without error), the result is sorted
ascending by version, and it is non-empty. -/
theorem check_for_updates_lines (config : AppConfig) (net : FetchOracle)
    (resp : HttpText) (content : String) (ps : List PatchInfo)
    (hsend : net.send = .ok resp) (htext : resp.text = .ok content)
    (hck : check_for_updates config net = .ok ps) :
    ps.Perm ((rustLines content).filterMap lineToPatch) ∧
    List.Pairwise (fun a b => patchLe a b = true) ps ∧
    ps ≠ [] := by
  cases hurl : config.update_url with
  | none =>
    simp [check_for_updates, hurl] at hck
  | some u =>
    cases hst : isSuccessStatus resp.status with
    | false =>
      simp [check_for_updates, hurl, hsend, hst] at hck
    | true =>
      simp only [check_for_updates, hurl, hsend, hst, htext, Bool.not_true, Bool.false_eq_true,
        if_false] at hck
      cases hempty : (sortByLe patchLe (availablePatches content)).isEmpty with
      | true =>
        rw [hempty] at hck
        simp at hck
      | false =>
        rw [hempty] at hck
        simp only [Bool.false_eq_true, if_false, Except.ok.injEq] at hck
        subst hck
        refine ⟨sortByLe_perm patchLe _, sortByLe_sorted patchLe_trans patchLe_total _, ?_⟩
        intro hnil
        rw [hnil] at hempty
        exact Bool.noConfusion hempty

/-- **C3 witness**: the catalog body with one good line per kind of
skipped line parses to exactly the two well-formed entries, sorted
ascending. -/
theorem check_for_updates_lines_witness :
    ([⟨⟨0, 9, 0, [], []⟩, "patch-0.9.0.zip"⟩, ⟨⟨1, 0, 1, [], []⟩, "patch-1.0.1.zip"⟩] :
        List PatchInfo).Perm
      ((rustLines "patch-1.0.1.zip\npatch-0.9.0.zip\nnot-a-patch.txt\n# comment\n\n").filterMap
        lineToPatch) ∧
    List.Pairwise (fun a b => patchLe a b = true)
      ([⟨⟨0, 9, 0, [], []⟩, "patch-0.9.0.zip"⟩, ⟨⟨1, 0, 1, [], []⟩, "patch-1.0.1.zip"⟩] :
        List PatchInfo) ∧
    ([⟨⟨0, 9, 0, [], []⟩, "patch-0.9.0.zip"⟩, ⟨⟨1, 0, 1, [], []⟩, "patch-1.0.1.zip"⟩] :
        List PatchInfo) ≠ [] :=
  check_for_updates_lines ⟨some "u", some "1.0.0"⟩
    ⟨.ok ⟨200, .ok "patch-1.0.1.zip\npatch-0.9.0.zip\nnot-a-patch.txt\n# comment\n\n"⟩⟩
    ⟨200, .ok "patch-1.0.1.zip\npatch-0.9.0.zip\nnot-a-patch.txt\n# comment\n\n"⟩
    "patch-1.0.1.zip\npatch-0.9.0.zip\nnot-a-patch.txt\n# comment\n\n"
    [⟨⟨0, 9, 0, [], []⟩, "patch-0.9.0.zip"⟩, ⟨⟨1, 0, 1, [], []⟩, "patch-1.0.1.zip"⟩]
    rfl rfl (by decide)

/-! ### C1: extraction path safety -/

theorem normStack_append (xs ys : List String) : ∀ st, normStack (xs ++ ys) st =
    match normStack xs st with
    | none => none
    | some st2 => normStack ys st2 := by
  induction xs with
  | nil => intro st; rfl
  | cons p rest ih =>
    intro st
    cases hp1 : (p == "" || p == ".") with
    | true =>
      simp only [List.cons_append, normStack, hp1, if_true]
      exact ih st
    | false =>
      cases hp2 : (p == "..") with
      | true =>
        cases st with
        | nil => simp only [List.cons_append, normStack, hp1, hp2, Bool.false_eq_true, if_false,
            if_true]
        | cons t st2 =>
          simp only [List.cons_append, normStack, hp1, hp2, Bool.false_eq_true, if_false, if_true]
          exact ih st2
      | false =>
        simp only [List.cons_append, normStack, hp1, hp2, Bool.false_eq_true, if_false]
        exact ih (p :: st)

theorem insideRoot_take (ps : List String) (k : Nat) (h : insideRoot ps = true) :
    insideRoot (ps.take k) = true := by
  unfold insideRoot at h ⊢
  have hsplit := normStack_append (ps.take k) (ps.drop k) []
  rw [List.take_append_drop] at hsplit
  cases hk : normStack (ps.take k) [] with
  | some st => simp [hk]
  | none =>
    rw [hk] at hsplit
    rw [hsplit] at h
    exact Bool.noConfusion h

theorem fsHas_fsSet (fs : FS) (k : List String) (v : FsNode) (q : List String) :
    fsHas (fsSet fs k v) q = ((k == q) || fsHas fs q) := by
  unfold fsHas fsSet fsFind
  cases h : (k == q) with
  | true =>
    rw [List.find?_cons_of_pos _ (by simpa using h)]
    simp
  | false =>
    rw [List.find?_cons_of_neg _ (by simpa using h)]
    simp

theorem fsHas_fsSet_cases {fs : FS} {k : List String} {v : FsNode} {q : List String}
    (h : fsHas (fsSet fs k v) q = true) : q = k ∨ fsHas fs q = true := by
  rw [fsHas_fsSet] at h
  cases hk : (k == q) with
  | true => exact Or.inl (eq_of_beq hk).symm
  | false =>
    rw [hk] at h
    exact Or.inr (by simpa using h)

theorem mkdirUpTo_has (fs : FS) (ps : List String) :
    ∀ (n : Nat) (q : List String), fsHas (mkdirUpTo fs ps n) q = true →
      fsHas fs q = true ∨ ∃ k, k < n ∧ q = ps.take (k + 1) := by
  intro n
  induction n with
  | zero => intro q h; exact Or.inl h
  | succ k ih =>
    intro q h
    unfold mkdirUpTo at h
    cases hanc : fsHas (mkdirUpTo fs ps k) (ps.take (k + 1)) with
    | true =>
      simp only [hanc, if_true] at h
      rcases ih q h with h1 | ⟨j, hj, hq⟩
      · exact Or.inl h1
      · exact Or.inr ⟨j, Nat.lt_succ_of_lt hj, hq⟩
    | false =>
      simp only [hanc, Bool.false_eq_true, if_false] at h
      rcases fsHas_fsSet_cases h with hq | h1
      · exact Or.inr ⟨k, Nat.lt_succ_self k, hq⟩
      · rcases ih q h1 with h2 | ⟨j, hj, hq⟩
        · exact Or.inl h2
        · exact Or.inr ⟨j, Nat.lt_succ_of_lt hj, hq⟩

/-- Every node `create_dir_all` adds resolves inside the root provided
the requested directory does. -/
theorem mkdirAll_safe {fs : FS} {ps q : List String} (hin : insideRoot ps = true)
    (h : fsHas (mkdirAll fs ps) q = true) : fsHas fs q = true ∨ insideRoot q = true := by
  rcases mkdirUpTo_has fs ps ps.length q h with h1 | ⟨k, _, hq⟩
  · exact Or.inl h1
  · subst hq
    exact Or.inr (insideRoot_take ps (k + 1) hin)

theorem enclosedParts_insideRoot {name : String} {ps : List String}
    (h : enclosedParts name = some ps) : insideRoot ps = true := by
  unfold enclosedParts at h
  split at h
  · exact Option.noConfusion h
  · split at h
    · exact Option.noConfusion h
    · split at h
      · cases h
        assumption
      · exact Option.noConfusion h

/-- A file's parent directory also resolves inside the root. -/
theorem insideRoot_dropLast {ps : List String} (h : insideRoot ps = true) :
    insideRoot ps.dropLast = true := by
  rw [List.dropLast_eq_take]
  exact insideRoot_take ps _ h

/-- Safety of the extraction loop: any node present afterwards was
present before, or lies at a path that resolves inside the extraction
root. -/
theorem extractLoop_safe (fname : String) (total : Nat) :
    ∀ (entries : List ZipEntry) (outs : List EntryOutcome) (i : Nat) (fs : FS)
      (ev : List UpdateProgress) (q : List String),
      fsHas (extractLoop fname total entries outs i fs ev).2.1 q = true →
      fsHas fs q = true ∨ insideRoot q = true := by
  intro entries
  induction entries with
  | nil =>
    intro outs i fs ev q h
    simp only [extractLoop] at h
    exact Or.inl h
  | cons e rest ih =>
    intro outs i fs ev q h
    simp only [extractLoop] at h
    cases hbi : (outs.headD cleanOutcome).byIndexErr with
    | some m =>
      rw [hbi] at h
      exact Or.inl h
    | none =>
      rw [hbi] at h
      cases henc : enclosedParts e.name with
      | none =>
        rw [henc] at h
        exact ih _ _ _ _ _ h
      | some outPs =>
        rw [henc] at h
        have hin : insideRoot outPs = true := enclosedParts_insideRoot henc
        cases hdir : e.isDir with
        | true =>
          rw [hdir] at h
          simp only [if_true] at h
          cases hmk : (outs.headD cleanOutcome).mkdirErr with
          | some m =>
            rw [hmk] at h
            exact Or.inl h
          | none =>
            rw [hmk] at h
            rcases ih _ _ _ _ _ h with h1 | h1
            · exact mkdirAll_safe hin h1
            · exact Or.inr h1
        | false =>
          rw [hdir] at h
          simp only [Bool.false_eq_true, if_false] at h
          -- abbreviations used below
          cases hneed : (!outPs.dropLast.isEmpty && !fsHas fs outPs.dropLast) with
          | true =>
            rw [hneed] at h
            cases hmk : (outs.headD cleanOutcome).mkdirErr with
            | some m =>
              rw [hmk] at h
              simp only [Option.isSome_some, Bool.and_true, if_true] at h
              exact Or.inl h
            | none =>
              rw [hmk] at h
              simp only [Option.isSome_none, Bool.and_false, Bool.false_eq_true, if_false,
                if_true] at h
              have hparent : insideRoot outPs.dropLast = true := insideRoot_dropLast hin
              have hfs1 : ∀ q2, fsHas (mkdirAll fs outPs.dropLast) q2 = true →
                  fsHas fs q2 = true ∨ insideRoot q2 = true :=
                fun q2 hq2 => mkdirAll_safe hparent hq2
              cases hcr : (outs.headD cleanOutcome).createErr with
              | some m =>
                rw [hcr] at h
                exact hfs1 q h
              | none =>
                rw [hcr] at h
                cases hcp : (outs.headD cleanOutcome).copyErr with
                | some m =>
                  rw [hcp] at h
                  rcases fsHas_fsSet_cases h with hq | h1
                  · subst hq; exact Or.inr hin
                  · exact hfs1 q h1
                | none =>
                  rw [hcp] at h
                  rcases ih _ _ _ _ _ h with h1 | h1
                  · rcases fsHas_fsSet_cases h1 with hq | h2
                    · subst hq; exact Or.inr hin
                    · rcases fsHas_fsSet_cases h2 with hq | h3
                      · subst hq; exact Or.inr hin
                      · exact hfs1 q h3
                  · exact Or.inr h1
          | false =>
            rw [hneed] at h
            simp only [Bool.false_and, Bool.false_eq_true, if_false] at h
            cases hcr : (outs.headD cleanOutcome).createErr with
            | some m =>
              rw [hcr] at h
              exact Or.inl h
            | none =>
              rw [hcr] at h
              cases hcp : (outs.headD cleanOutcome).copyErr with
              | some m =>
                rw [hcp] at h
                rcases fsHas_fsSet_cases h with hq | h1
                · subst hq; exact Or.inr hin
                · exact Or.inl h1
              | none =>
                rw [hcp] at h
                rcases ih _ _ _ _ _ h with h1 | h1
                · rcases fsHas_fsSet_cases h1 with hq | h2
                  · subst hq; exact Or.inr hin
                  · rcases fsHas_fsSet_cases h2 with hq | h3
                    · subst hq; exact Or.inr hin
                    · exact Or.inl h3
                · exact Or.inr h1

/-- **C1.**  Whatever the archive contains and wherever the run stops,
`apply_patch` never creates a file-system node at a path that resolves
outside the extraction root: an entry whose stored path would escape is
skipped and never written, so every node of the resulting file system
either existed before or resolves inside the root. -/
theorem apply_patch_safe (patchPath : String) (o : InstallOracle) (fs : FS)
    (q : List String) (h : fsHas (apply_patch patchPath o fs).2.1 q = true) :
    fsHas fs q = true ∨ insideRoot q = true := by
  unfold apply_patch at h
  cases hop : o.openErr with
  | some m =>
    rw [hop] at h
    exact Or.inl h
  | none =>
    rw [hop] at h
    cases hz : o.zipErr with
    | some m =>
      rw [hz] at h
      exact Or.inl h
    | none =>
      rw [hz] at h
      exact extractLoop_safe _ _ _ _ _ _ _ _ h

/-- **C1 witness**: extracting an archive holding a traversal entry
`../evil.txt` and an honest entry `ok/file.txt` into an empty file
system: the honest path was written and resolves inside the root, and
the traversal entry produced no node at all. -/
theorem apply_patch_safe_witness :
    (fsHas ([] : FS) ["ok", "file.txt"] = true ∨ insideRoot ["ok", "file.txt"] = true) ∧
    fsHas (apply_patch "updates/patch-1.0.0.zip"
        ⟨none, none, [⟨"../evil.txt", false, [1, 2]⟩, ⟨"ok/file.txt", false, [3]⟩], []⟩
        []).2.1 ["..", "evil.txt"] = false :=
  ⟨apply_patch_safe "updates/patch-1.0.0.zip"
      ⟨none, none, [⟨"../evil.txt", false, [1, 2]⟩, ⟨"ok/file.txt", false, [3]⟩], []⟩
      [] ["ok", "file.txt"] (by decide),
    by decide⟩

/-! ### C7: per-entry progress events -/

/-- The `Extracting` events of a failure-free run: one per entry whose
stored name is enclosed in the root, carrying the entry's 1-based
archive index and the total entry count; skipped entries contribute
none. -/
def eventsOf (fname : String) (total : Nat) : List ZipEntry → Nat → List UpdateProgress
  | [], _ => []
  | e :: rest, i =>
    (if (enclosedParts e.name).isSome then
      [UpdateProgress.Extracting (i + 1) total fname] else []) ++
      eventsOf fname total rest (i + 1)

theorem extractLoop_events_clean (fname : String) (total : Nat) :
    ∀ (entries : List ZipEntry) (i : Nat) (fs : FS) (ev : List UpdateProgress),
      (extractLoop fname total entries [] i fs ev).2.2 = ev ++ eventsOf fname total entries i := by
  intro entries
  induction entries with
  | nil => intro i fs ev; simp [extractLoop, eventsOf]
  | cons e rest ih =>
    intro i fs ev
    simp only [extractLoop, eventsOf, List.headD_nil, List.tail_nil, cleanOutcome]
    cases henc : enclosedParts e.name with
    | none =>
      simp only [henc, Option.isSome_none, Bool.false_eq_true, if_false, List.nil_append]
      exact ih (i + 1) fs ev
    | some outPs =>
      simp only [henc, Option.isSome_some, if_true]
      cases hdir : e.isDir with
      | true =>
        simp only [hdir, if_true]
        rw [ih]
        simp
      | false =>
        simp only [hdir, Bool.false_eq_true, if_false, Option.isSome_none, Bool.and_false,
          if_false]
        rw [ih]
        simp

/-- **C7 counterexample.**  An archive with exactly one entry, whose
stored path escapes the root: `apply_patch` emits no `Extracting` event
at all, so it is not the case that every entry gets an event. -/
theorem apply_patch_events_cex :
    ([⟨"../evil.txt", false, [1]⟩] : List ZipEntry).length = 1 ∧
    (apply_patch "updates/patch-1.0.0.zip"
        ⟨none, none, [⟨"../evil.txt", false, [1]⟩], []⟩ []).2.2 = [] := by decide

/-- **C7 amended.**  In a run without file-system failures,
`apply_patch` iterates entries in archive order and emits, for each
entry whose stored path is enclosed in the extraction root, one
`Extracting` event carrying that entry's 1-based archive index and the
total entry count, before processing the entry; entries skipped by the
path-safety check produce no event (their indices are simply absent). -/
theorem apply_patch_events (patchPath : String) (entries : List ZipEntry) (fs : FS) :
    (apply_patch patchPath ⟨none, none, entries, []⟩ fs).2.2 =
      eventsOf ((fileName patchPath).getD "unknown") entries.length entries 0 := by
  unfold apply_patch
  simpa using extractLoop_events_clean ((fileName patchPath).getD "unknown")
    entries.length entries 0 fs []

/-! ### C4: abort on the first failing patch -/

theorem runPatches_append (udir : String) (l1 l2 : List (PatchInfo × PatchOracle)) :
    ∀ st, runPatches udir (l1 ++ l2) st =
      match runPatches udir l1 st with
      | (.ok _, st1) => runPatches udir l2 st1
      | (.error e, st1) => (.error e, st1) := by
  induction l1 with
  | nil => intro st; rfl
  | cons po rest ih =>
    intro st
    simp only [List.cons_append, runPatches]
    cases hstep : stepPatch udir po st with
    | error est =>
      obtain ⟨e, st2⟩ := est
      rfl
    | ok st2 =>
      exact ih st2

theorem stepPatch_error_version {udir : String} {po : PatchInfo × PatchOracle} {st st2 : RunSt}
    {e : UpdaterError} (h : stepPatch udir po st = .error (e, st2)) :
    st2.version = st.version := by
  unfold stepPatch at h
  rcases hd : download_patch udir po.1 po.2.download st.fs with ⟨dres, fs1, ev1⟩
  rw [hd] at h
  dsimp only at h
  cases dres with
  | error e2 =>
    dsimp only at h
    simp only [Except.error.injEq, Prod.mk.injEq] at h
    rw [← h.2]
  | ok path =>
    dsimp only at h
    rcases ha : apply_patch path po.2.install fs1 with ⟨ares, fs2, ev2⟩
    rw [ha] at h
    dsimp only at h
    cases ares with
    | error e2 =>
      dsimp only at h
      simp only [Except.error.injEq, Prod.mk.injEq] at h
      rw [← h.2]
    | ok u => exact Except.noConfusion h

theorem stepPatch_ok_version {udir : String} {po : PatchInfo × PatchOracle} {st st2 : RunSt}
    (h : stepPatch udir po st = .ok st2) : st2.version = some po.1.version.toStr := by
  unfold stepPatch at h
  rcases hd : download_patch udir po.1 po.2.download st.fs with ⟨dres, fs1, ev1⟩
  rw [hd] at h
  dsimp only at h
  cases dres with
  | error e2 => exact Except.noConfusion h
  | ok path =>
    dsimp only at h
    rcases ha : apply_patch path po.2.install fs1 with ⟨ares, fs2, ev2⟩
    rw [ha] at h
    dsimp only at h
    cases ares with
    | error e2 => exact Except.noConfusion h
    | ok u =>
      dsimp only at h
      simp only [Except.ok.injEq] at h
      rw [← h]

/-- The in-memory version after successfully applying a patch list:
the last patch's version, or the starting value for an empty list. -/
def appliedVersion (l : List (PatchInfo × PatchOracle)) (v0 : Option String) : Option String :=
  match l.getLast? with
  | none => v0
  | some po => some po.1.version.toStr

theorem getLast?_cons_ne_none {α : Type _} (b : α) (bs : List α) :
    (b :: bs).getLast? ≠ none := by
  induction bs generalizing b with
  | nil => simp
  | cons c cs ih => rw [List.getLast?_cons_cons]; exact ih c

theorem appliedVersion_cons (po : PatchInfo × PatchOracle) (rest : List (PatchInfo × PatchOracle))
    (v0 : Option String) :
    appliedVersion (po :: rest) v0 = appliedVersion rest (some po.1.version.toStr) := by
  cases rest with
  | nil => rfl
  | cons b bs =>
    unfold appliedVersion
    rw [List.getLast?_cons_cons]
    cases hl : (b :: bs).getLast? with
    | none => exact absurd hl (getLast?_cons_ne_none b bs)
    | some x => rfl

theorem runPatches_ok_version (udir : String) :
    ∀ (l : List (PatchInfo × PatchOracle)) (st st1 : RunSt) (u : Unit),
      runPatches udir l st = (.ok u, st1) → st1.version = appliedVersion l st.version := by
  intro l
  induction l with
  | nil =>
    intro st st1 u h
    simp only [runPatches, Prod.mk.injEq] at h
    rw [← h.2]
    rfl
  | cons po rest ih =>
    intro st st1 u h
    simp only [runPatches] at h
    cases hstep : stepPatch udir po st with
    | error est =>
      obtain ⟨e, st2⟩ := est
      rw [hstep] at h
      simp at h
    | ok st2 =>
      rw [hstep] at h
      rw [ih st2 st1 u h, appliedVersion_cons, stepPatch_ok_version hstep]

/-- **C4.**  If, with version `V` parsed and catalog `C` fetched, the
patch loop applies the patches of `pre` successfully and then the next
patch `po` fails to download or install with error `e`, the whole
`update` run returns exactly that error with exactly the state reached
at the failure — the trailing patches `rest` never influence the result
— and the in-memory version is the version of the last patch of `pre`
(the pre-run `config.version` when `pre` is empty). -/
theorem update_abort_on_failure
    (config : AppConfig) (o : UpdateOracle) (updatesDir : String) (fs : FS)
    (V : Version) (C : List PatchInfo)
    (pre rest : List (PatchInfo × PatchOracle)) (po : PatchInfo × PatchOracle)
    (st1 st2 : RunSt) (e : UpdaterError)
    (hparse : parseConfigVersion config = .ok V)
    (hcheck : check_for_updates config o.fetch = .ok C)
    (hsplit : zipOracles (applicableOf C V) o.patches = pre ++ po :: rest)
    (hpre : runPatches updatesDir pre
      ⟨fs, [.CheckingForUpdates, .UpdatesAvailable C], config.version⟩ = (.ok (), st1))
    (hfail : stepPatch updatesDir po st1 = .error (e, st2)) :
    update config o updatesDir fs = (.error e, st2) ∧
    st2.version = st1.version ∧
    st1.version = appliedVersion pre config.version ∧
    (pre = [] → st2.version = config.version) := by
  have happ : applicableOf C V ≠ [] := by
    intro hnil
    rw [hnil] at hsplit
    simp [zipOracles] at hsplit
  have hv1 : st1.version = appliedVersion pre config.version :=
    runPatches_ok_version updatesDir pre _ st1 () hpre
  have hv2 : st2.version = st1.version := stepPatch_error_version hfail
  refine ⟨?_, hv2, hv1, ?_⟩
  · unfold update
    rw [hparse, hcheck]
    have hne : (applicableOf C V).isEmpty = false := by
      cases hA : applicableOf C V with
      | nil => exact absurd hA happ
      | cons a as => rfl
    simp only [hne, Bool.false_eq_true, if_false, List.singleton_append]
    rw [hsplit, runPatches_append, hpre]
    simp only [runPatches]
    rw [hfail]
  · intro hnil
    subst hnil
    rw [hv2, hv1]
    rfl

/-- **C4 witness**: first applicable patch downloads but its archive
fails to open — `update` returns the `ZipExtractionError` and the
in-memory version is still the pre-run `1.0.0`; the second applicable
patch is never attempted. -/
theorem update_abort_on_failure_witness :
    update ⟨some "http://h/list.txt", some "1.0.0"⟩
        ⟨⟨.ok ⟨200, .ok "patch-1.0.1.zip\npatch-1.0.2.zip"⟩⟩,
          [⟨⟨none, .ok ⟨200, none, []⟩, []⟩, ⟨none, some "corrupt archive", [], []⟩⟩]⟩
        "updates" [] =
      (.error (.ZipExtractionError "Failed to open zip archive: corrupt archive"),
        ⟨[(["updates", "patch-1.0.1.zip"], .file [])],
          [.CheckingForUpdates,
            .UpdatesAvailable [⟨⟨1, 0, 1, [], []⟩, "patch-1.0.1.zip"⟩,
              ⟨⟨1, 0, 2, [], []⟩, "patch-1.0.2.zip"⟩]],
          some "1.0.0"⟩) ∧
    (⟨[(["updates", "patch-1.0.1.zip"], .file [])],
        [.CheckingForUpdates,
          .UpdatesAvailable [⟨⟨1, 0, 1, [], []⟩, "patch-1.0.1.zip"⟩,
            ⟨⟨1, 0, 2, [], []⟩, "patch-1.0.2.zip"⟩]],
        some "1.0.0"⟩ : RunSt).version = some "1.0.0" :=
  ⟨(update_abort_on_failure ⟨some "http://h/list.txt", some "1.0.0"⟩
      ⟨⟨.ok ⟨200, .ok "patch-1.0.1.zip\npatch-1.0.2.zip"⟩⟩,
        [⟨⟨none, .ok ⟨200, none, []⟩, []⟩, ⟨none, some "corrupt archive", [], []⟩⟩]⟩
      "updates" [] ⟨1, 0, 0, [], []⟩
      [⟨⟨1, 0, 1, [], []⟩, "patch-1.0.1.zip"⟩, ⟨⟨1, 0, 2, [], []⟩, "patch-1.0.2.zip"⟩]
      [] [(⟨⟨1, 0, 2, [], []⟩, "patch-1.0.2.zip"⟩, defaultPatchOracle)]
      (⟨⟨1, 0, 1, [], []⟩, "patch-1.0.1.zip"⟩,
        ⟨⟨none, .ok ⟨200, none, []⟩, []⟩, ⟨none, some "corrupt archive", [], []⟩⟩)
      ⟨[], [.CheckingForUpdates,
          .UpdatesAvailable [⟨⟨1, 0, 1, [], []⟩, "patch-1.0.1.zip"⟩,
            ⟨⟨1, 0, 2, [], []⟩, "patch-1.0.2.zip"⟩]],
        some "1.0.0"⟩
      ⟨[(["updates", "patch-1.0.1.zip"], .file [])],
        [.CheckingForUpdates,
          .UpdatesAvailable [⟨⟨1, 0, 1, [], []⟩, "patch-1.0.1.zip"⟩,
            ⟨⟨1, 0, 2, [], []⟩, "patch-1.0.2.zip"⟩]],
        some "1.0.0"⟩
      (.ZipExtractionError "Failed to open zip archive: corrupt archive")
      (by decide) (by decide) (by decide) (by decide) (by decide)).1,
    rfl⟩

/-! ### C6: configuration validation happens before the network -/

/-- **C6.**  When the configured installed version is absent or
unparseable, `update` fails with `VersionParseError`, leaving the file
system untouched and having delivered only the `CheckingForUpdates`
event; and the whole result is the same for every network/patch oracle,
i.e. the catalog fetch is never attempted. -/
theorem update_version_parse_failure
    (config : AppConfig) (o : UpdateOracle) (updatesDir : String) (fs : FS)
    (h : config.version = none ∨
      ∃ s e, config.version = some s ∧ Version.parse s = .error e) :
    (∃ m, update config o updatesDir fs =
      (.error (.VersionParseError m), ⟨fs, [.CheckingForUpdates], config.version⟩)) ∧
    ∀ o2 : UpdateOracle, update config o2 updatesDir fs = update config o updatesDir fs := by
  have hp : ∃ m, parseConfigVersion config = .error (.VersionParseError m) := by
    rcases h with h | ⟨s, e, hs, he⟩
    · exact ⟨"No version in config", by simp [parseConfigVersion, h]⟩
    · exact ⟨e, by simp [parseConfigVersion, hs, he]⟩
  rcases hp with ⟨m, hm⟩
  constructor
  · refine ⟨m, ?_⟩
    unfold update
    rw [hm]
  · intro o2
    unfold update
    rw [hm]

/-- **C6 witness**: an unparseable installed version fails before the
network is consulted — here the network oracle would fail loudly, yet
the result is the `VersionParseError` state. -/
theorem update_version_parse_failure_witness :
    (∃ m, update ⟨some "http://h/list.txt", some "not-a-version"⟩ ⟨⟨.error "offline"⟩, []⟩
        "updates" [] =
      (.error (.VersionParseError m), ⟨[], [.CheckingForUpdates], some "not-a-version"⟩)) ∧
    ∀ o2 : UpdateOracle, update ⟨some "http://h/list.txt", some "not-a-version"⟩ o2
        "updates" [] =
      update ⟨some "http://h/list.txt", some "not-a-version"⟩ ⟨⟨.error "offline"⟩, []⟩
        "updates" [] :=
  update_version_parse_failure ⟨some "http://h/list.txt", some "not-a-version"⟩
    ⟨⟨.error "offline"⟩, []⟩ "updates" []
    (Or.inr ⟨"not-a-version", "expected a numeric component", rfl, rfl⟩)

/-! ### C9: the CheckingForUpdates event -/

theorem dlLoop_no_checking (key : List String) (vstr : String) (total : Nat) :
    ∀ (reads : List (Except String (List Nat))) (wr : List (Option String)) (d : Nat)
      (fs : FS) (ev : List UpdateProgress),
      ∃ ext, (dlLoop key vstr total reads wr d fs ev).2.2 = ev ++ ext ∧
        UpdateProgress.CheckingForUpdates ∉ ext := by
  intro reads
  induction reads with
  | nil => intro wr d fs ev; exact ⟨[], by simp [dlLoop], by simp⟩
  | cons r rest ih =>
    intro wr d fs ev
    cases r with
    | error msg => exact ⟨[], by simp [dlLoop], by simp⟩
    | ok chunk =>
      cases chunk with
      | nil => exact ⟨[], by simp [dlLoop], by simp⟩
      | cons b bs =>
        cases hw : wr.headD none with
        | some m =>
          refine ⟨[], ?_, by simp⟩
          simp only [dlLoop, hw]
          simp
        | none =>
          simp only [dlLoop, hw]
          by_cases ht : total > 0
          · rw [if_pos ht]
            obtain ⟨ext, hext, hmem⟩ := ih wr.tail (d + (b :: bs).length) _
              (ev ++ [UpdateProgress.Downloading 1 1 vstr (d + (b :: bs).length) total])
            refine ⟨[UpdateProgress.Downloading 1 1 vstr (d + (b :: bs).length) total] ++ ext,
              ?_, ?_⟩
            · rw [hext, List.append_assoc]
            · intro hx
              rcases List.mem_append.mp hx with hx | hx
              · simp at hx
              · exact hmem hx
          · rw [if_neg ht]
            obtain ⟨ext, hext, hmem⟩ := ih wr.tail (d + (b :: bs).length) _ ev
            exact ⟨ext, hext, hmem⟩

theorem download_patch_no_checking (updatesDir : String) (patch : PatchInfo)
    (o : DownloadOracle) (fs : FS) :
    UpdateProgress.CheckingForUpdates ∉ (download_patch updatesDir patch o fs).2.2 := by
  unfold download_patch
  cases hc : o.createErr with
  | some m => simp
  | none =>
    cases hs : o.send with
    | error e => simp
    | ok resp =>
      cases hst : isSuccessStatus resp.status with
      | false => simp [hst]
      | true =>
        simp only [hst, Bool.not_true, Bool.false_eq_true, if_false]
        obtain ⟨ext, hext, hmem⟩ := dlLoop_no_checking
          (pathParts (destPath updatesDir patch.version)) patch.version.toStr
          (resp.contentLength.getD 0) resp.reads o.writeErrs 0
          (fsSet fs (pathParts (destPath updatesDir patch.version)) (.file [])) []
        rcases hdl : dlLoop (pathParts (destPath updatesDir patch.version)) patch.version.toStr
            (resp.contentLength.getD 0) resp.reads o.writeErrs 0
            (fsSet fs (pathParts (destPath updatesDir patch.version)) (.file [])) [] with
          ⟨r, fs2, ev⟩
        rw [hdl] at hext
        simp only at hext
        cases r with
        | error e =>
          dsimp only
          rw [hext]
          simpa using hmem
        | ok u =>
          dsimp only
          rw [hext]
          simpa using hmem

theorem extractLoop_no_checking (fname : String) (total : Nat) :
    ∀ (entries : List ZipEntry) (outs : List EntryOutcome) (i : Nat) (fs : FS)
      (ev : List UpdateProgress),
      ∃ ext, (extractLoop fname total entries outs i fs ev).2.2 = ev ++ ext ∧
        UpdateProgress.CheckingForUpdates ∉ ext := by
  intro entries
  induction entries with
  | nil => intro outs i fs ev; exact ⟨[], by simp [extractLoop], by simp⟩
  | cons e rest ih =>
    intro outs i fs ev
    simp only [extractLoop]
    cases hbi : (outs.headD cleanOutcome).byIndexErr with
    | some m => exact ⟨[], by simp, by simp⟩
    | none =>
      cases henc : enclosedParts e.name with
      | none => exact ih _ _ _ _
      | some outPs =>
        have hone : ∀ ev2 ext2, ev2 = (ev ++ [UpdateProgress.Extracting (i + 1) total fname]) ++ ext2 →
            UpdateProgress.CheckingForUpdates ∉ ext2 →
            ∃ ext, ev2 = ev ++ ext ∧ UpdateProgress.CheckingForUpdates ∉ ext := by
          intro ev2 ext2 h2 hm2
          refine ⟨[UpdateProgress.Extracting (i + 1) total fname] ++ ext2, ?_, ?_⟩
          · rw [h2, List.append_assoc]
          · intro hx
            rcases List.mem_append.mp hx with hx | hx
            · simp at hx
            · exact hm2 hx
        cases hdir : e.isDir with
        | true =>
          simp only [if_true]
          cases hmk : (outs.headD cleanOutcome).mkdirErr with
          | some m =>
            exact hone _ [] (by simp) (by simp)
          | none =>
            obtain ⟨ext2, h2, hm2⟩ := ih outs.tail (i + 1) (mkdirAll fs outPs)
              (ev ++ [UpdateProgress.Extracting (i + 1) total fname])
            exact hone _ ext2 h2 hm2
        | false =>
          simp only [Bool.false_eq_true, if_false]
          cases hneed : (!outPs.dropLast.isEmpty && !fsHas fs outPs.dropLast) with
          | true =>
            cases hmk : (outs.headD cleanOutcome).mkdirErr with
            | some m =>
              simp only [hmk, Option.isSome_some, Bool.and_true, if_true]
              exact hone _ [] (by simp) (by simp)
            | none =>
              simp only [hmk, Option.isSome_none, Bool.and_false, Bool.false_eq_true, if_false,
                if_true]
              cases hcr : (outs.headD cleanOutcome).createErr with
              | some m => exact hone _ [] (by simp) (by simp)
              | none =>
                cases hcp : (outs.headD cleanOutcome).copyErr with
                | some m => exact hone _ [] (by simp) (by simp)
                | none =>
                  obtain ⟨ext2, h2, hm2⟩ := ih outs.tail (i + 1) _
                    (ev ++ [UpdateProgress.Extracting (i + 1) total fname])
                  exact hone _ ext2 h2 hm2
          | false =>
            simp only [Bool.false_and, Bool.false_eq_true, if_false]
            cases hcr : (outs.headD cleanOutcome).createErr with
            | some m => exact hone _ [] (by simp) (by simp)
            | none =>
              cases hcp : (outs.headD cleanOutcome).copyErr with
              | some m => exact hone _ [] (by simp) (by simp)
              | none =>
                obtain ⟨ext2, h2, hm2⟩ := ih outs.tail (i + 1) _
                  (ev ++ [UpdateProgress.Extracting (i + 1) total fname])
                exact hone _ ext2 h2 hm2

theorem apply_patch_no_checking (patchPath : String) (o : InstallOracle) (fs : FS) :
    UpdateProgress.CheckingForUpdates ∉ (apply_patch patchPath o fs).2.2 := by
  unfold apply_patch
  cases hop : o.openErr with
  | some m => simp
  | none =>
    cases hz : o.zipErr with
    | some m => simp
    | none =>
      obtain ⟨ext, hext, hmem⟩ := extractLoop_no_checking ((fileName patchPath).getD "unknown")
        o.entries.length o.entries o.outcomes 0 fs []
      dsimp only
      rw [hext]
      simpa using hmem

theorem stepPatch_no_checking (udir : String) (po : PatchInfo × PatchOracle) (st : RunSt) :
    (∀ e st2, stepPatch udir po st = .error (e, st2) →
      ∃ ext, st2.events = st.events ++ ext ∧ UpdateProgress.CheckingForUpdates ∉ ext) ∧
    (∀ st2, stepPatch udir po st = .ok st2 →
      ∃ ext, st2.events = st.events ++ ext ∧ UpdateProgress.CheckingForUpdates ∉ ext) := by
  have hdl := download_patch_no_checking udir po.1 po.2.download st.fs
  rcases hd : download_patch udir po.1 po.2.download st.fs with ⟨dres, fs1, ev1⟩
  rw [hd] at hdl
  simp only at hdl
  constructor
  · intro e st2 h
    unfold stepPatch at h
    rw [hd] at h
    dsimp only at h
    cases dres with
    | error e2 =>
      dsimp only at h
      simp only [Except.error.injEq, Prod.mk.injEq] at h
      rw [← h.2]
      exact ⟨ev1, rfl, hdl⟩
    | ok path =>
      dsimp only at h
      have hap := apply_patch_no_checking path po.2.install fs1
      rcases ha : apply_patch path po.2.install fs1 with ⟨ares, fs2, ev2⟩
      rw [ha] at h hap
      simp only at hap
      dsimp only at h
      cases ares with
      | error e2 =>
        dsimp only at h
        simp only [Except.error.injEq, Prod.mk.injEq] at h
        rw [← h.2]
        refine ⟨ev1 ++ ev2, by simp, ?_⟩
        intro hx
        rcases List.mem_append.mp hx with hx | hx
        · exact hdl hx
        · exact hap hx
      | ok u => exact Except.noConfusion h
  · intro st2 h
    unfold stepPatch at h
    rw [hd] at h
    dsimp only at h
    cases dres with
    | error e2 => exact Except.noConfusion h
    | ok path =>
      dsimp only at h
      have hap := apply_patch_no_checking path po.2.install fs1
      rcases ha : apply_patch path po.2.install fs1 with ⟨ares, fs2, ev2⟩
      rw [ha] at h hap
      simp only at hap
      dsimp only at h
      cases ares with
      | error e2 => exact Except.noConfusion h
      | ok u =>
        dsimp only at h
        simp only [Except.ok.injEq] at h
        rw [← h]
        refine ⟨ev1 ++ ev2, by simp, ?_⟩
        intro hx
        rcases List.mem_append.mp hx with hx | hx
        · exact hdl hx
        · exact hap hx

theorem runPatches_no_checking (udir : String) :
    ∀ (l : List (PatchInfo × PatchOracle)) (st : RunSt),
      ∃ ext, (runPatches udir l st).2.events = st.events ++ ext ∧
        UpdateProgress.CheckingForUpdates ∉ ext := by
  intro l
  induction l with
  | nil => intro st; exact ⟨[], by simp [runPatches], by simp⟩
  | cons po rest ih =>
    intro st
    simp only [runPatches]
    cases hstep : stepPatch udir po st with
    | error est =>
      obtain ⟨e, st2⟩ := est
      obtain ⟨ext, hext, hmem⟩ := (stepPatch_no_checking udir po st).1 e st2 hstep
      exact ⟨ext, hext, hmem⟩
    | ok st2 =>
      obtain ⟨ext1, hext1, hmem1⟩ := (stepPatch_no_checking udir po st).2 st2 hstep
      obtain ⟨ext2, hext2, hmem2⟩ := ih st2
      refine ⟨ext1 ++ ext2, ?_, ?_⟩
      · rw [hext2, hext1, List.append_assoc]
      · intro hx
        rcases List.mem_append.mp hx with hx | hx
        · exact hmem1 hx
        · exact hmem2 hx

/-- **C9.**  On every input — also runs that fail while validating the
configured version or discovering the catalog — the very first progress
event `update` delivers is `CheckingForUpdates`, and the whole run
delivers exactly one such event. -/
theorem update_checking_first (config : AppConfig) (o : UpdateOracle) (updatesDir : String)
    (fs : FS) :
    (update config o updatesDir fs).2.events.head? = some .CheckingForUpdates ∧
    (update config o updatesDir fs).2.events.count .CheckingForUpdates = 1 := by
  unfold update
  cases hp : parseConfigVersion config with
  | error e =>
    dsimp only
    exact ⟨rfl, by decide⟩
  | ok current =>
    dsimp only
    cases hc : check_for_updates config o.fetch with
    | error e =>
      dsimp only
      exact ⟨rfl, by decide⟩
    | ok patches =>
      dsimp only
      by_cases happ : (applicableOf patches current).isEmpty = true
      · rw [if_pos happ]
        refine ⟨rfl, ?_⟩
        simp [List.count_cons]
      · rw [if_neg happ]
        obtain ⟨ext, hext, hmem⟩ := runPatches_no_checking updatesDir
          (zipOracles (applicableOf patches current) o.patches)
          ⟨fs, [UpdateProgress.CheckingForUpdates] ++ [UpdateProgress.UpdatesAvailable patches],
            config.version⟩
        have hcount0 : ext.count UpdateProgress.CheckingForUpdates = 0 :=
          List.count_eq_zero.mpr hmem
        rcases hr : runPatches updatesDir (zipOracles (applicableOf patches current) o.patches)
            ⟨fs, [UpdateProgress.CheckingForUpdates] ++ [UpdateProgress.UpdatesAvailable patches],
              config.version⟩ with ⟨r, st⟩
        rw [hr] at hext
        dsimp only at hext
        cases r with
        | error e =>
          dsimp only
          rw [hext]
          refine ⟨rfl, ?_⟩
          simp [List.count_append, List.count_cons, hcount0]
        | ok u =>
          dsimp only
          rw [hext]
          refine ⟨rfl, ?_⟩
          simp [List.count_append, List.count_cons, hcount0]
/-! ### C5, C8, C10: the download path -/

theorem fsFind_fsSet_self (fs : FS) (k : List String) (v : FsNode) :
    fsFind (fsSet fs k v) k = some v := by
  unfold fsFind fsSet
  rw [List.find?_cons_of_pos _ (by simp)]
  rfl

/-- The only error the read/write loop can produce is the
`FileSystemError` of a failed `write_all`; read errors end the loop
silently. -/
theorem dlLoop_error_shape (key : List String) (vstr : String) (total : Nat) :
    ∀ (reads : List (Except String (List Nat))) (wr : List (Option String)) (d : Nat)
      (fs : FS) (ev : List UpdateProgress) (e : UpdaterError),
      (dlLoop key vstr total reads wr d fs ev).1 = .error e →
      ∃ m, e = .FileSystemError m := by
  intro reads
  induction reads with
  | nil => intro wr d fs ev e h; exact absurd h (by simp [dlLoop])
  | cons r rest ih =>
    intro wr d fs ev e h
    cases r with
    | error msg => exact absurd h (by simp [dlLoop])
    | ok chunk =>
      cases chunk with
      | nil => exact absurd h (by simp [dlLoop])
      | cons b bs =>
        cases hw : wr.headD none with
        | some m =>
          simp only [dlLoop, hw] at h
          exact ⟨"Failed to write to file: " ++ m, by simpa using h.symm⟩
        | none =>
          simp only [dlLoop, hw] at h
          by_cases ht : total > 0
          · rw [if_pos ht] at h
            exact ih _ _ _ _ _ h
          · rw [if_neg ht] at h
            exact ih _ _ _ _ _ h

/-- The read/write loop only ever touches the destination key. -/
theorem dlLoop_fs_keys (key : List String) (vstr : String) (total : Nat) :
    ∀ (reads : List (Except String (List Nat))) (wr : List (Option String)) (d : Nat)
      (fs : FS) (ev : List UpdateProgress) (q : List String),
      fsHas (dlLoop key vstr total reads wr d fs ev).2.1 q = true →
      fsHas fs q = true ∨ q = key := by
  intro reads
  induction reads with
  | nil => intro wr d fs ev q h; exact Or.inl (by simpa [dlLoop] using h)
  | cons r rest ih =>
    intro wr d fs ev q h
    cases r with
    | error msg => exact Or.inl (by simpa [dlLoop] using h)
    | ok chunk =>
      cases chunk with
      | nil => exact Or.inl (by simpa [dlLoop] using h)
      | cons b bs =>
        cases hw : wr.headD none with
        | some m =>
          simp only [dlLoop, hw] at h
          exact Or.inl h
        | none =>
          simp only [dlLoop, hw] at h
          have step : ∀ (h2 : fsHas (dlLoop key vstr total rest wr.tail (d + (b :: bs).length)
              (fsSet fs key (.file ((match fsFind fs key with
                | some (.file c) => c
                | _ => []) ++ (b :: bs))))
              (if total > 0 then
                ev ++ [UpdateProgress.Downloading 1 1 vstr (d + (b :: bs).length) total]
              else ev)).2.1 q = true),
              fsHas fs q = true ∨ q = key := by
            intro h2
            rcases ih _ _ _ _ q h2 with h3 | h3
            · rcases fsHas_fsSet_cases h3 with h4 | h4
              · exact Or.inr h4
              · exact Or.inl h4
            · exact Or.inr h3
          by_cases ht : total > 0
          · rw [if_pos ht] at h
            exact step (by rw [if_pos ht]; exact h)
          · rw [if_neg ht] at h
            exact step (by rw [if_neg ht]; exact h)

/-- **C8.**  `download_patch` derives its destination deterministically
from the patch version alone — `updates_dir/patch-<version>.zip` — so
any successful run returns exactly that path, the run creates no
file-system node other than that destination (repeated downloads of one
version overwrite rather than accumulate), and two patches with equal
versions target the same path. -/
theorem download_patch_dest (updatesDir : String) (p : PatchInfo) (o : DownloadOracle)
    (fs : FS) :
    (∀ s, (download_patch updatesDir p o fs).1 = .ok s → s = destPath updatesDir p.version) ∧
    (∀ q, fsHas (download_patch updatesDir p o fs).2.1 q = true →
      fsHas fs q = true ∨ q = pathParts (destPath updatesDir p.version)) ∧
    (∀ p2 : PatchInfo, p2.version = p.version →
      destPath updatesDir p2.version = destPath updatesDir p.version) := by
  refine ⟨?_, ?_, ?_⟩
  · intro s h
    unfold download_patch at h
    cases hc : o.createErr with
    | some m => rw [hc] at h; exact Except.noConfusion h
    | none =>
      rw [hc] at h
      cases hs : o.send with
      | error e => rw [hs] at h; exact Except.noConfusion h
      | ok resp =>
        rw [hs] at h
        dsimp only at h
        cases hst : isSuccessStatus resp.status with
        | false => simp [hst] at h
        | true =>
          simp only [hst, Bool.not_true, Bool.false_eq_true, if_false] at h
          rcases hdl : dlLoop (pathParts (destPath updatesDir p.version)) p.version.toStr
              (resp.contentLength.getD 0) resp.reads o.writeErrs 0
              (fsSet fs (pathParts (destPath updatesDir p.version)) (.file [])) [] with
            ⟨r, fs2, ev⟩
          rw [hdl] at h
          cases r with
          | error e => exact Except.noConfusion h
          | ok u =>
            simp only [Except.ok.injEq] at h
            exact h.symm
  · intro q h
    unfold download_patch at h
    cases hc : o.createErr with
    | some m => rw [hc] at h; exact Or.inl h
    | none =>
      rw [hc] at h
      cases hs : o.send with
      | error e =>
        rw [hs] at h
        dsimp only at h
        rcases fsHas_fsSet_cases h with hq | h2
        · exact Or.inr hq
        · exact Or.inl h2
      | ok resp =>
        rw [hs] at h
        dsimp only at h
        cases hst : isSuccessStatus resp.status with
        | false =>
          simp only [hst, Bool.not_false, if_true] at h
          rcases fsHas_fsSet_cases h with hq | h2
          · exact Or.inr hq
          · exact Or.inl h2
        | true =>
          simp only [hst, Bool.not_true, Bool.false_eq_true, if_false] at h
          rcases hdl : dlLoop (pathParts (destPath updatesDir p.version)) p.version.toStr
              (resp.contentLength.getD 0) resp.reads o.writeErrs 0
              (fsSet fs (pathParts (destPath updatesDir p.version)) (.file [])) [] with
            ⟨r, fs2, ev⟩
          have hkeys := dlLoop_fs_keys (pathParts (destPath updatesDir p.version)) p.version.toStr
            (resp.contentLength.getD 0) resp.reads o.writeErrs 0
            (fsSet fs (pathParts (destPath updatesDir p.version)) (.file [])) [] q
          rw [hdl] at h hkeys
          dsimp only at hkeys
          cases r with
          | error e =>
            dsimp only at h
            rcases hkeys h with h2 | h2
            · rcases fsHas_fsSet_cases h2 with hq | h3
              · exact Or.inr hq
              · exact Or.inl h3
            · exact Or.inr h2
          | ok u =>
            dsimp only at h
            rcases hkeys h with h2 | h2
            · rcases fsHas_fsSet_cases h2 with hq | h3
              · exact Or.inr hq
              · exact Or.inl h3
            · exact Or.inr h2
  · intro p2 h
    rw [h]

/-- **C8 witness**: a successful download of version `1.0.1` lands at
`updates/patch-1.0.1.zip`; starting from a file system already holding
that file, no other node is created; and a patch record with the same
version but a different URL targets the same destination. -/
theorem download_patch_dest_witness :
    "updates/patch-1.0.1.zip" = destPath "updates" ⟨1, 0, 1, [], []⟩ ∧
    (fsHas ([(["updates", "patch-1.0.1.zip"], FsNode.file [9, 9])] : FS)
        ["updates", "patch-1.0.1.zip"] = true ∨
      ["updates", "patch-1.0.1.zip"] = pathParts (destPath "updates" ⟨1, 0, 1, [], []⟩)) ∧
    destPath "updates" (⟨⟨1, 0, 1, [], []⟩, "http://mirror/patch-1.0.1.zip"⟩ : PatchInfo).version =
      destPath "updates" ⟨1, 0, 1, [], []⟩ :=
  ⟨(download_patch_dest "updates" ⟨⟨1, 0, 1, [], []⟩, "http://h/patch-1.0.1.zip"⟩
      ⟨none, .ok ⟨200, some 1, [.ok [7]]⟩, []⟩
      [(["updates", "patch-1.0.1.zip"], FsNode.file [9, 9])]).1
      "updates/patch-1.0.1.zip" (by decide),
    (download_patch_dest "updates" ⟨⟨1, 0, 1, [], []⟩, "http://h/patch-1.0.1.zip"⟩
      ⟨none, .ok ⟨200, some 1, [.ok [7]]⟩, []⟩
      [(["updates", "patch-1.0.1.zip"], FsNode.file [9, 9])]).2.1
      ["updates", "patch-1.0.1.zip"] (by decide),
    (download_patch_dest "updates" ⟨⟨1, 0, 1, [], []⟩, "http://h/patch-1.0.1.zip"⟩
      ⟨none, .ok ⟨200, some 1, [.ok [7]]⟩, []⟩
      [(["updates", "patch-1.0.1.zip"], FsNode.file [9, 9])]).2.2
      ⟨⟨1, 0, 1, [], []⟩, "http://mirror/patch-1.0.1.zip"⟩ rfl⟩

/-- **C10.**  `File::create` truncates the destination before the HTTP
request is issued, so whenever `download_patch` fails with
`NetworkError` — a failed `send` or a non-success status — the
destination file for that version exists and is empty; an archive
previously downloaded for the same version is not preserved. -/
theorem download_patch_network_error (updatesDir : String) (p : PatchInfo) (o : DownloadOracle)
    (fs : FS) (m : String)
    (h : (download_patch updatesDir p o fs).1 = .error (.NetworkError m)) :
    fsFind (download_patch updatesDir p o fs).2.1 (pathParts (destPath updatesDir p.version)) =
      some (.file []) := by
  unfold download_patch at h ⊢
  cases hc : o.createErr with
  | some m2 =>
    rw [hc] at h
    simp at h
  | none =>
    simp only [hc] at h ⊢
    cases hs : o.send with
    | error e =>
      simp only [hs]
      exact fsFind_fsSet_self fs _ _
    | ok resp =>
      simp only [hs] at h ⊢
      cases hst : isSuccessStatus resp.status with
      | false =>
        simp only [hst, Bool.not_false, if_true]
        exact fsFind_fsSet_self fs _ _
      | true =>
        simp only [hst, Bool.not_true, Bool.false_eq_true, if_false] at h ⊢
        rcases hdl : dlLoop (pathParts (destPath updatesDir p.version)) p.version.toStr
            (resp.contentLength.getD 0) resp.reads o.writeErrs 0
            (fsSet fs (pathParts (destPath updatesDir p.version)) (.file [])) [] with
          ⟨r, fs2, ev⟩
        have hshape := dlLoop_error_shape (pathParts (destPath updatesDir p.version))
          p.version.toStr (resp.contentLength.getD 0) resp.reads o.writeErrs 0
          (fsSet fs (pathParts (destPath updatesDir p.version)) (.file [])) []
        rw [hdl] at h hshape
        cases r with
        | error e =>
          dsimp only at h
          obtain ⟨m3, hm3⟩ := hshape e rfl
          rw [hm3] at h
          simp at h
        | ok u =>
          dsimp only at h
          exact Except.noConfusion h

/-- **C10 witness**: the destination held an earlier archive `[9, 9]`;
the request fails, the result is a `NetworkError`, and the destination
is now an existing empty file. -/
theorem download_patch_network_error_witness :
    fsFind (download_patch "updates" ⟨⟨1, 0, 1, [], []⟩, "http://h/patch-1.0.1.zip"⟩
        ⟨none, .error "connection refused", []⟩
        [(["updates", "patch-1.0.1.zip"], FsNode.file [9, 9])]).2.1
      (pathParts (destPath "updates" ⟨1, 0, 1, [], []⟩)) = some (.file []) :=
  download_patch_network_error "updates" ⟨⟨1, 0, 1, [], []⟩, "http://h/patch-1.0.1.zip"⟩
    ⟨none, .error "connection refused", []⟩
    [(["updates", "patch-1.0.1.zip"], FsNode.file [9, 9])]
    "Failed to download patch: connection refused" (by decide)

/-- **C5 (divergent behavior of the source).**  A response body whose
reader yields one 8-byte chunk and then fails mid-stream (with 16 bytes
announced): the `while let Ok(n) = response.read(..)` loop exits
silently on the read error and `download_patch` returns success with
the partially written file on disk — the failure is not surfaced as
`NetworkError`. -/
theorem download_patch_swallows_read_error :
    (download_patch "updates" ⟨⟨1, 0, 1, [], []⟩, "http://h/patch-1.0.1.zip"⟩
        ⟨none, .ok ⟨200, some 16, [.ok [1, 2, 3, 4, 5, 6, 7, 8], .error "connection reset"]⟩, []⟩
        []).1 = .ok "updates/patch-1.0.1.zip" ∧
    fsFind (download_patch "updates" ⟨⟨1, 0, 1, [], []⟩, "http://h/patch-1.0.1.zip"⟩
        ⟨none, .ok ⟨200, some 16, [.ok [1, 2, 3, 4, 5, 6, 7, 8], .error "connection reset"]⟩, []⟩
        []).2.1 ["updates", "patch-1.0.1.zip"] = some (.file [1, 2, 3, 4, 5, 6, 7, 8]) := by
  decide

end DRL
